import Mathlib

/-!
Verification development for the ink!/pdsl contract storage engine.

The definitions below are a shallow embedding of the storage2 lazy
containers (`LazyCell`, `LazyIndexMap`, `LazyHashMap`), the storage2
`HashMap` collection together with its key `Stash`, the old-tree
`DynAlloc` storage allocator and the old-tree `BTreeMap` node store.

Machine integers are embedded as `Nat` with explicit modular reduction
(`% 2 ^ 64` for 64-bit words inside the hash, `% 2 ^ 256` for storage
keys).  Host-storage effects are embedded as explicit lists of
operations (`HostOp`) so that frame properties ("no `set` call
happens") are plain equations on those lists.  Fallible paths (Rust
`expect`/`assert!` panics) are embedded as `Option` results.
-/

/-! ## 64-bit words, BLAKE2b-256

The `Blake2x256Hasher` used by `LazyHashMap` is the standard BLAKE2b
hash with a 32-byte digest.  Modelled from the spec: the `ink_core`
hash module is not under `src/`; the spec fixes the hasher to the
standard BLAKE2 function ("Four fixed, deterministic functions with
the signatures and digest sizes of standard ... BLAKE2-256 (32 B)").
Bytes are `Nat`s below 256, 64-bit words are `Nat`s below `2 ^ 64`.
All recursions are structural so that the kernel can evaluate digests.
-/

def MASK64 : Nat := 2 ^ 64

def add64 (a b : Nat) : Nat := (a + b) % MASK64

/-- Bitwise xor on the low `fuel` bits, written by structural recursion
on the fuel so that it reduces inside the kernel. -/
def xorBits : Nat → Nat → Nat → Nat
  | 0, _, _ => 0
  | fuel + 1, a, b => (if a % 2 = b % 2 then 0 else 1) + 2 * xorBits fuel (a / 2) (b / 2)

def xor64 (a b : Nat) : Nat := xorBits 64 a b

/-- Rotate a 64-bit word right by `n` bits (the two summands occupy
disjoint bit ranges, so `+` is the same as bitwise or here). -/
def ror64 (x n : Nat) : Nat := x / 2 ^ n + x % 2 ^ n * 2 ^ (64 - n)

def blakeIV : List Nat :=
  [0x6a09e667f3bcc908, 0xbb67ae8584caa73b, 0x3c6ef372fe94f82b, 0xa54ff53a5f1d36f1,
   0x510e527fade682d1, 0x9b05688c2b3e6c1f, 0x1f83d9abfb41bd6b, 0x5be0cd19137e2179]

def blakeSigma : List (List Nat) :=
  [[0, 1, 2, 3, 4, 5, 6, 7, 8, 9, 10, 11, 12, 13, 14, 15],
   [14, 10, 4, 8, 9, 15, 13, 6, 1, 12, 0, 2, 11, 7, 5, 3],
   [11, 8, 12, 0, 5, 2, 15, 13, 10, 14, 3, 6, 7, 1, 9, 4],
   [7, 9, 3, 1, 13, 12, 11, 14, 2, 6, 5, 10, 4, 0, 15, 8],
   [9, 0, 5, 7, 2, 4, 10, 15, 14, 1, 11, 12, 6, 8, 3, 13],
   [2, 12, 6, 10, 0, 11, 8, 3, 4, 13, 7, 5, 15, 14, 1, 9],
   [12, 5, 1, 15, 14, 13, 4, 10, 0, 7, 6, 3, 9, 2, 8, 11],
   [13, 11, 7, 14, 12, 1, 3, 9, 5, 0, 15, 4, 8, 6, 2, 10],
   [6, 15, 14, 9, 11, 3, 0, 8, 12, 2, 13, 7, 1, 4, 10, 5],
   [10, 2, 8, 4, 7, 6, 1, 5, 15, 11, 9, 14, 3, 12, 13, 0]]

def blakeG (v : List Nat) (a b c d x y : Nat) : List Nat :=
  let va := add64 (add64 (v.getD a 0) (v.getD b 0)) x
  let vd := ror64 (xor64 (v.getD d 0) va) 32
  let vc := add64 (v.getD c 0) vd
  let vb := ror64 (xor64 (v.getD b 0) vc) 24
  let va := add64 (add64 va vb) y
  let vd := ror64 (xor64 vd va) 16
  let vc := add64 vc vd
  let vb := ror64 (xor64 vb vc) 63
  (((v.set a va).set b vb).set c vc).set d vd

def blakeRoundG (m s v : List Nat) (i a b c d : Nat) : List Nat :=
  blakeG v a b c d (m.getD (s.getD (2 * i) 0) 0) (m.getD (s.getD (2 * i + 1) 0) 0)

def blakeRound (m v s : List Nat) : List Nat :=
  let v := blakeRoundG m s v 0 0 4 8 12
  let v := blakeRoundG m s v 1 1 5 9 13
  let v := blakeRoundG m s v 2 2 6 10 14
  let v := blakeRoundG m s v 3 3 7 11 15
  let v := blakeRoundG m s v 4 0 5 10 15
  let v := blakeRoundG m s v 5 1 6 11 12
  let v := blakeRoundG m s v 6 2 7 8 13
  blakeRoundG m s v 7 3 4 9 14

def bytesToWord64 (bs : List Nat) : Nat :=
  bs.reverse.foldl (fun acc b => acc * 256 + b % 256) 0

def toWords64 : List Nat → List Nat
  | b0 :: b1 :: b2 :: b3 :: b4 :: b5 :: b6 :: b7 :: rest =>
      bytesToWord64 [b0, b1, b2, b3, b4, b5, b6, b7] :: toWords64 rest
  | [] => []
  | bs => [bytesToWord64 bs]

def word64ToBytes (w : Nat) : List Nat :=
  [w % 256, w / 2 ^ 8 % 256, w / 2 ^ 16 % 256, w / 2 ^ 24 % 256,
   w / 2 ^ 32 % 256, w / 2 ^ 40 % 256, w / 2 ^ 48 % 256, w / 2 ^ 56 % 256]

def blakeCompress (h m : List Nat) (t : Nat) (last : Bool) : List Nat :=
  let v := h ++ blakeIV
  let v := v.set 12 (xor64 (v.getD 12 0) (t % MASK64))
  let v := v.set 13 (xor64 (v.getD 13 0) (t / MASK64 % MASK64))
  let v := if last then v.set 14 (xor64 (v.getD 14 0) (MASK64 - 1)) else v
  let v := (List.range 12).foldl (fun v r => blakeRound m v (blakeSigma.getD (r % 10) [])) v
  (List.range 8).map fun i => xor64 (h.getD i 0) (xor64 (v.getD i 0) (v.getD (i + 8) 0))

def padBlock (bs : List Nat) : List Nat := bs ++ List.replicate (128 - bs.length) 0

def blake2b256Init : List Nat :=
  blakeIV.set 0 (xor64 (blakeIV.getD 0 0) 0x01010020)

/-- Process a message 128-byte block by 128-byte block; the fuel is an
upper bound on the number of blocks, which keeps the recursion
structural. -/
def blake2bConsume : Nat → List Nat → Nat → List Nat → List Nat
  | 0, h, _, _ => h
  | fuel + 1, h, off, msg =>
    if msg.length ≤ 128 then
      blakeCompress h (toWords64 (padBlock msg)) (off + msg.length) true
    else
      blake2bConsume fuel (blakeCompress h (toWords64 (msg.take 128)) (off + 128) false)
        (off + 128) (msg.drop 128)

/-- BLAKE2b with a 32-byte digest (the `Blake2x256Hasher`), as a byte
list of length 32. -/
def blake2b256 (msg : List Nat) : List Nat :=
  ((blake2bConsume (msg.length / 128 + 1) blake2b256Init 0 msg).map word64ToBytes).flatten.take 32

/-! ## Keys and SCALE encoding fragments

Modelled from the spec: `ink_primitives::Key` is not under `src/`.  A
key is a 256-bit identifier with modular `+ u64` arithmetic and
bytewise (big-endian numeric) ordering, so we embed flat keys as `Nat`
with reduction modulo `2 ^ 256`.  Where the byte image of a key
matters (hashing in `LazyHashMap`) we use the 32-byte list directly.
SCALE encoding of `i32` is its 4 little-endian bytes; a SCALE struct
is the concatenation of its field encodings; a fixed-size array is the
concatenation of its elements.
-/

def KEYSPACE : Nat := 2 ^ 256

def addKey (k off : Nat) : Nat := (k + off) % KEYSPACE

def scaleEncodeI32 (k : Int) : List Nat :=
  let u := (k % (2 ^ 32 : Int)).toNat
  [u % 256, u / 2 ^ 8 % 256, u / 2 ^ 16 % 256, u / 2 ^ 24 % 256]

def inkHashmapTag : List Nat :=
  [0x69, 0x6e, 0x6b, 0x20, 0x68, 0x61, 0x73, 0x68, 0x6d, 0x61, 0x70]

/-- SCALE encoding of the private `KeyPair` struct from
`LazyHashMap::to_offset_key`: the 11 domain-tag bytes `b"ink hashmap"`,
then the 32 anchor-key bytes, then the SCALE encoding of the map key. -/
def encodeKeyPair (storageKey valueKey : List Nat) : List Nat :=
  inkHashmapTag ++ storageKey ++ valueKey

/-- `LazyHashMap::to_offset_key`: hash the SCALE-encoded `KeyPair`
with the map's hasher (instantiated at `Blake2x256Hasher`). -/
def toOffsetKey (storageKey valueKey : List Nat) : List Nat :=
  blake2b256 (encodeKeyPair storageKey valueKey)

/-- Transcription of the derived-key formula as the spec words it:
`derived_key(anchor, k) = H(b"ink hashmap" ‖ anchor[0..32] ‖ scale_encode(k))`. -/
def derivedKeySpec (anchor encodedKey : List Nat) : List Nat :=
  blake2b256 (inkHashmapTag ++ anchor ++ encodedKey)

/-! ## Host-storage effects -/

/-- One host-storage effect: `set_contract_storage` or
`clear_contract_storage`, addressed by a key of type `κ` and storing a
decoded value of type `V` (encoding is injective, so we keep the value
itself). -/
inductive HostOp (κ V : Type) : Type
  | set (key : κ) (value : V)
  | clear (key : κ)
deriving DecidableEq

def applyOp {κ V : Type} [DecidableEq κ] (store : κ → Option V) :
    HostOp κ V → κ → Option V
  | HostOp.set k v => fun q => if q = k then some v else store q
  | HostOp.clear k => fun q => if q = k then none else store q

def applyOps {κ V : Type} [DecidableEq κ] (store : κ → Option V)
    (ops : List (HostOp κ V)) : κ → Option V :=
  ops.foldl applyOp store

/-- Addresses cleared by a list of host operations, in order. -/
def clearedKeys {κ V : Type} : List (HostOp κ V) → List κ
  | [] => []
  | HostOp.clear k :: rest => k :: clearedKeys rest
  | HostOp.set _ _ :: rest => clearedKeys rest

/-- Addresses written (`set`) by a list of host operations, in order. -/
def writtenKeys {κ V : Type} : List (HostOp κ V) → List κ
  | [] => []
  | HostOp.set k _ :: rest => k :: writtenKeys rest
  | HostOp.clear _ :: rest => writtenKeys rest

/-! ## Association lists

The in-memory caches of the lazy containers are `BTreeMap`s from
indices/keys to boxed entries; we embed them as association lists with
unordered insert-or-replace (iteration order is irrelevant for every
claim below). -/

def alup {α β : Type} [DecidableEq α] : List (α × β) → α → Option β
  | [], _ => none
  | (a, b) :: rest, q => if q = a then some b else alup rest q

def aset {α β : Type} [DecidableEq α] : List (α × β) → α → β → List (α × β)
  | [], q, v => [(q, v)]
  | (a, b) :: rest, q, v => if q = a then (a, v) :: rest else (a, b) :: aset rest q v

/-! ## Cache entries

Modelled from the spec: `storage2/lazy/mod.rs` (the `Entry` cache line
shared by all lazy containers) is not under `src/`.  The spec fixes it
as `Entry<V> = { value: Option<V>, state: Preserved | Mutated }` with
`None` meaning known-absent, and `put` marking `Mutated` unless both
the old and the new value are `None` ("mark Mutated iff the new value
differs from None-None case"), which also matches the unit tests in
`lazy_imap.rs`/`lazy_hmap.rs`. -/

inductive EntryState : Type
  | Preserved
  | Mutated
deriving DecidableEq

structure Entry (V : Type) : Type where
  value : Option V
  state : EntryState
deriving DecidableEq

/-- `Entry::put`: replace the value, return the old one; the state
becomes `Mutated` unless old and new value are both `None`. -/
def Entry.put {V : Type} (e : Entry V) (newValue : Option V) : Option V × Entry V :=
  match e.value, newValue with
  | none, none => (none, e)
  | oldValue, _ => (oldValue, { value := newValue, state := EntryState.Mutated })

/-- Modelled from the spec: `Entry`'s write-back used by
`push_spread`/`push_packed_root` — a `Mutated` entry with a value is
written at its cell, a `Mutated` entry without a value clears its
cell, a `Preserved` entry produces no host operation. -/
def Entry.pushPackedRootOps {V : Type} (e : Entry V) (cell : Nat) : List (HostOp Nat V) :=
  match e.state with
  | EntryState.Preserved => []
  | EntryState.Mutated =>
    match e.value with
    | some v => [HostOp.set cell v]
    | none => [HostOp.clear cell]

/-- Same write-back discipline for entries addressed by 32-byte hashed
keys (the `LazyHashMap` case). -/
def Entry.pushPackedRootOpsH {V : Type} (e : Entry V) (cell : List Nat) :
    List (HostOp (List Nat) V) :=
  match e.state with
  | EntryState.Preserved => []
  | EntryState.Mutated =>
    match e.value with
    | some v => [HostOp.set cell v]
    | none => [HostOp.clear cell]

/-! ## LazyIndexMap -/

/-- `LazyIndexMap<V>`: an optional anchor key plus the cache of
touched entries (`EntryMap<V> = BTreeMap<Index, Box<Entry<V>>>`). -/
structure LazyIndexMap (V : Type) : Type where
  key : Option Nat
  cachedEntries : List (Nat × Entry V)
deriving DecidableEq

def LazyIndexMap.new {V : Type} : LazyIndexMap V :=
  { key := none, cachedEntries := [] }

def LazyIndexMap.lazyAt {V : Type} (k : Nat) : LazyIndexMap V :=
  { key := some k, cachedEntries := [] }

/-- `LazyIndexMap::key_at`: the cell owned by index `i` is `anchor + i`
(256-bit add-with-u64). -/
def LazyIndexMap.keyAt {V : Type} (m : LazyIndexMap V) (index : Nat) : Option Nat :=
  m.key.map fun k => addKey k index

/-- `SpreadLayout::pull_spread` for `LazyIndexMap`: capture the anchor,
start with an empty cache. -/
def LazyIndexMap.pullSpread {V : Type} (anchor : Nat) : LazyIndexMap V :=
  LazyIndexMap.lazyAt anchor

/-- `LazyIndexMap::lazily_load`: return the cached entry for `index`,
or pull it from the backing store (state `Preserved`) and cache it.
The store argument stands for `pull_packed_root_opt` reads of the
host storage. -/
def LazyIndexMap.loadValue {V : Type} (m : LazyIndexMap V) (store : Nat → Option V)
    (index : Nat) : Option V :=
  match m.keyAt index with
  | some cell => store cell
  | none => none

def LazyIndexMap.lazilyLoad {V : Type} (m : LazyIndexMap V) (store : Nat → Option V)
    (index : Nat) : LazyIndexMap V × Entry V :=
  match alup m.cachedEntries index with
  | some e => (m, e)
  | none =>
    let e : Entry V := { value := m.loadValue store index, state := EntryState.Preserved }
    ({ m with cachedEntries := aset m.cachedEntries index e }, e)

/-- `LazyIndexMap::get` (the cache side effect of the interior
mutability is returned explicitly). -/
def LazyIndexMap.get {V : Type} (m : LazyIndexMap V) (store : Nat → Option V)
    (index : Nat) : LazyIndexMap V × Option V :=
  let l := m.lazilyLoad store index
  (l.1, l.2.value)

/-- `LazyIndexMap::put`: unconditionally cache a `Mutated` entry,
without loading the previous value. -/
def LazyIndexMap.put {V : Type} (m : LazyIndexMap V) (index : Nat) (newValue : Option V) :
    LazyIndexMap V :=
  { m with
    cachedEntries := aset m.cachedEntries index ({ value := newValue, state := EntryState.Mutated }) }

/-- `LazyIndexMap::put_get`: lazily load, then `Entry::put`. -/
def LazyIndexMap.putGet {V : Type} (m : LazyIndexMap V) (store : Nat → Option V)
    (index : Nat) (newValue : Option V) : LazyIndexMap V × Option V :=
  let l := m.lazilyLoad store index
  let p := l.2.put newValue
  ({ l.1 with cachedEntries := aset l.1.cachedEntries index p.2 }, p.1)

/-- `LazyIndexMap::swap`: bail out on equal indices; lazily load both
entries; bail out if both values are `None`; otherwise exchange the
values and mark both entries `Mutated`. -/
def LazyIndexMap.swap {V : Type} (m : LazyIndexMap V) (store : Nat → Option V)
    (x y : Nat) : LazyIndexMap V :=
  if x = y then m
  else
    let lx := m.lazilyLoad store x
    let ly := lx.1.lazilyLoad store y
    if lx.2.value.isNone && ly.2.value.isNone then ly.1
    else
      { ly.1 with
        cachedEntries := aset
          (aset ly.1.cachedEntries x ({ value := ly.2.value, state := EntryState.Mutated }))
          y ({ value := lx.2.value, state := EntryState.Mutated }) }

/-- `LazyIndexMap::clear_packed_at` for a value type `V` with
`REQUIRES_DEEP_CLEAN_UP = false` (e.g. `u8`): the function reads
`root_key` from `self.key` — without adding the index — and issues
`clear_contract_storage(root_key)`; `none` models the
"cannot clear in lazy state" panic when no key is set. -/
def LazyIndexMap.clearPackedAtOps {V : Type} (m : LazyIndexMap V) (_index : Nat) :
    Option (List (HostOp Nat V)) :=
  m.key.map fun rootKey => [HostOp.clear rootKey]

/-- Host operations of `SpreadLayout::push_spread` for the cache list:
each cached entry is pushed at cell `offset_key + index`. -/
def entriesPushOps {V : Type} (offsetKey : Nat) :
    List (Nat × Entry V) → List (HostOp Nat V)
  | [] => []
  | (i, e) :: rest => e.pushPackedRootOps (addKey offsetKey i) ++ entriesPushOps offsetKey rest

/-- `SpreadLayout::push_spread` for `LazyIndexMap`, as its list of host
operations; `offsetKey` is the key the surrounding `KeyPtr` yields. -/
def LazyIndexMap.pushSpreadOps {V : Type} (m : LazyIndexMap V) (offsetKey : Nat) :
    List (HostOp Nat V) :=
  entriesPushOps offsetKey m.cachedEntries

/-! ## LazyCell -/

/-- `LazyCell<T>`: an optional key plus an optional cached entry. -/
structure LazyCell (V : Type) : Type where
  key : Option Nat
  cache : Option (Entry V)
deriving DecidableEq

/-- `LazyCell::new`: fresh value, no key, `Mutated` cache entry. -/
def LazyCell.new {V : Type} (value : Option V) : LazyCell V :=
  { key := none, cache := some { value := value, state := EntryState.Mutated } }

/-- `LazyCell::lazy`: key captured, cache empty. -/
def LazyCell.lazyAt {V : Type} (k : Nat) : LazyCell V :=
  { key := some k, cache := none }

/-- `SpreadLayout::pull_spread` for `LazyCell`. -/
def LazyCell.pullSpread {V : Type} (k : Nat) : LazyCell V :=
  LazyCell.lazyAt k

/-- `LazyCell::load_through_cache`: fill the cache from the store
(state `Preserved`) if it is empty. -/
def LazyCell.loadValue {V : Type} (c : LazyCell V) (store : Nat → Option V) : Option V :=
  match c.key with
  | some k => store k
  | none => none

def LazyCell.loadThroughCache {V : Type} (c : LazyCell V) (store : Nat → Option V) :
    LazyCell V × Entry V :=
  match c.cache with
  | some e => (c, e)
  | none =>
    let e : Entry V := { value := c.loadValue store, state := EntryState.Preserved }
    ({ c with cache := some e }, e)

/-- `LazyCell::get`. -/
def LazyCell.get {V : Type} (c : LazyCell V) (store : Nat → Option V) :
    LazyCell V × Option V :=
  let l := c.loadThroughCache store
  (l.1, l.2.value)

/-- `SpreadLayout::push_spread` for `LazyCell` (for a packed inner
type): pushes the entry if and only if one is cached; the entry itself
writes only in state `Mutated`. -/
def LazyCell.pushSpreadOps {V : Type} (c : LazyCell V) (offsetKey : Nat) :
    List (HostOp Nat V) :=
  match c.cache with
  | some e => e.pushPackedRootOps offsetKey
  | none => []

/-- Modelled from the spec: `clear_spread_root_opt` for a packed inner
type without deep clean-up removes the owned cell. -/
def clearSpreadRootOptOps {V : Type} (_value : Option V) (k : Nat) : List (HostOp Nat V) :=
  [HostOp.clear k]

/-- `Drop for LazyCell`: only when a key **and** a cached entry are
present is `clear_spread_root_opt` invoked; in every other case no
host operation happens. -/
def LazyCell.dropOps {V : Type} (c : LazyCell V) : List (HostOp Nat V) :=
  match c.key with
  | some k =>
    match c.cache with
    | some e => clearSpreadRootOptOps e.value k
    | none => []
  | none => []

/-! ## LazyHashMap

The model is generic over the map key type `K`; `encodeK` is the SCALE
encoding of `K` and the anchor `key` is the 32-byte storage key of the
map.  The backing store maps 32-byte cell keys to decoded values. -/

structure LazyHashMap (K W : Type) : Type where
  key : Option (List Nat)
  cachedEntries : List (K × Entry W)
deriving DecidableEq

def LazyHashMap.new {K W : Type} : LazyHashMap K W :=
  { key := none, cachedEntries := [] }

def LazyHashMap.lazyAt {K W : Type} (anchor : List Nat) : LazyHashMap K W :=
  { key := some anchor, cachedEntries := [] }

/-- `SpreadLayout::pull_spread` for `LazyHashMap`. -/
def LazyHashMap.pullSpread {K W : Type} (anchor : List Nat) : LazyHashMap K W :=
  LazyHashMap.lazyAt anchor

/-- `LazyHashMap::key_at`: the derived cell key of `k`, when the map
has an anchor. -/
def LazyHashMap.keyAt {K W : Type} (encodeK : K → List Nat) (m : LazyHashMap K W)
    (k : K) : Option (List Nat) :=
  m.key.map fun storageKey => toOffsetKey storageKey (encodeK k)

/-- `LazyHashMap::lazily_load`. -/
def LazyHashMap.loadValue {K W : Type} (encodeK : K → List Nat) (m : LazyHashMap K W)
    (store : List Nat → Option W) (k : K) : Option W :=
  match LazyHashMap.keyAt encodeK m k with
  | some cell => store cell
  | none => none

def LazyHashMap.lazilyLoad {K W : Type} [DecidableEq K] (encodeK : K → List Nat)
    (m : LazyHashMap K W) (store : List Nat → Option W) (k : K) :
    LazyHashMap K W × Entry W :=
  match alup m.cachedEntries k with
  | some e => (m, e)
  | none =>
    let e : Entry W := { value := LazyHashMap.loadValue encodeK m store k,
                         state := EntryState.Preserved }
    ({ m with cachedEntries := aset m.cachedEntries k e }, e)

/-- `LazyHashMap::get`. -/
def LazyHashMap.get {K W : Type} [DecidableEq K] (encodeK : K → List Nat)
    (m : LazyHashMap K W) (store : List Nat → Option W) (k : K) :
    LazyHashMap K W × Option W :=
  let l := LazyHashMap.lazilyLoad encodeK m store k
  (l.1, l.2.value)

/-- `LazyHashMap::put`. -/
def LazyHashMap.put {K W : Type} [DecidableEq K] (m : LazyHashMap K W) (k : K)
    (newValue : Option W) : LazyHashMap K W :=
  { m with
    cachedEntries := aset m.cachedEntries k ({ value := newValue, state := EntryState.Mutated }) }

/-- `LazyHashMap::put_get`. -/
def LazyHashMap.putGet {K W : Type} [DecidableEq K] (encodeK : K → List Nat)
    (m : LazyHashMap K W) (store : List Nat → Option W) (k : K) (newValue : Option W) :
    LazyHashMap K W × Option W :=
  let l := LazyHashMap.lazilyLoad encodeK m store k
  let p := l.2.put newValue
  ({ l.1 with cachedEntries := aset l.1.cachedEntries k p.2 }, p.1)

/-- `LazyHashMap::get_mut` combined with the mutation performed
through the returned `&mut` reference: if the loaded entry holds a
value, replace it by `f` of it — the entry state is **not** changed by
`lazily_load_mut` (matching `get_works` in the unit tests). Returns
the loaded value before mutation. -/
def LazyHashMap.getMutUpdate {K W : Type} [DecidableEq K] (encodeK : K → List Nat)
    (m : LazyHashMap K W) (store : List Nat → Option W) (k : K) (f : W → W) :
    LazyHashMap K W × Option W :=
  let l := LazyHashMap.lazilyLoad encodeK m store k
  match l.2.value with
  | some w =>
    ({ l.1 with
       cachedEntries := aset l.1.cachedEntries k ({ value := some (f w), state := l.2.state }) },
      some w)
  | none => (l.1, none)

/-- `LazyHashMap::swap`. -/
def LazyHashMap.swap {K W : Type} [DecidableEq K] (encodeK : K → List Nat)
    (m : LazyHashMap K W) (store : List Nat → Option W) (x y : K) : LazyHashMap K W :=
  if x = y then m
  else
    let lx := LazyHashMap.lazilyLoad encodeK m store x
    let ly := LazyHashMap.lazilyLoad encodeK lx.1 store y
    if lx.2.value.isNone && ly.2.value.isNone then ly.1
    else
      { ly.1 with
        cachedEntries := aset
          (aset ly.1.cachedEntries x ({ value := ly.2.value, state := EntryState.Mutated }))
          y ({ value := lx.2.value, state := EntryState.Mutated }) }

/-- `LazyHashMap::clear_packed_at` for a stored type without deep
clean-up: the cleared cell is the **derived** key of `k`
(`self.key_at(index)`), unlike the `LazyIndexMap` sibling. -/
def LazyHashMap.clearPackedAtOps {K W : Type} (encodeK : K → List Nat)
    (m : LazyHashMap K W) (k : K) : Option (List (HostOp (List Nat) W)) :=
  (LazyHashMap.keyAt encodeK m k).map fun cell => [HostOp.clear cell]

/-- Host operations of `SpreadLayout::push_spread` for the hash-map
cache: each cached entry is pushed at its derived cell key. -/
def entriesPushOpsH {K W : Type} (encodeK : K → List Nat) (offsetKey : List Nat) :
    List (K × Entry W) → List (HostOp (List Nat) W)
  | [] => []
  | (k, e) :: rest =>
      e.pushPackedRootOpsH (toOffsetKey offsetKey (encodeK k)) ++
        entriesPushOpsH encodeK offsetKey rest

/-- `SpreadLayout::push_spread` for `LazyHashMap`. -/
def LazyHashMap.pushSpreadOps {K W : Type} (encodeK : K → List Nat)
    (m : LazyHashMap K W) (offsetKey : List Nat) : List (HostOp (List Nat) W) :=
  entriesPushOpsH encodeK offsetKey m.cachedEntries

/-! ## The LazyHashMap entry API -/

/-- Occupied/Vacant discrimination result of `LazyHashMap::entry`. -/
inductive EntryKind : Type
  | Occupied
  | Vacant
deriving DecidableEq

/-- `LazyHashMap::entry` decides Occupied vs Vacant by inspecting the
in-memory cache only — the function does not take a store argument
because the source performs no storage read: an uncached key is
`Vacant`, a cached key is `Occupied` exactly if its cached value is
`Some`. -/
def LazyHashMap.entryKind {K W : Type} [DecidableEq K] (m : LazyHashMap K W) (k : K) :
    EntryKind :=
  match alup m.cachedEntries k with
  | some e =>
    match e.value with
    | some _ => EntryKind.Occupied
    | none => EntryKind.Vacant
  | none => EntryKind.Vacant

/-- `VacantEntry::insert` (the body of `or_insert` in the vacant
case): `put(key, Some(value))` followed by `get_mut(&key)`. -/
def LazyHashMap.vacantInsert {K W : Type} [DecidableEq K] (encodeK : K → List Nat)
    (m : LazyHashMap K W) (store : List Nat → Option W) (k : K) (v : W) :
    LazyHashMap K W × Option W :=
  let m1 := LazyHashMap.put m k (some v)
  let l := LazyHashMap.lazilyLoad encodeK m1 store k
  (l.1, l.2.value)

/-- `Entry::or_insert` on the result of `LazyHashMap::entry`: an
occupied entry keeps its value (`into_mut`), a vacant entry inserts
the default. -/
def LazyHashMap.entryOrInsert {K W : Type} [DecidableEq K] (encodeK : K → List Nat)
    (m : LazyHashMap K W) (store : List Nat → Option W) (k : K) (v : W) :
    LazyHashMap K W × Option W :=
  match LazyHashMap.entryKind m k with
  | EntryKind.Occupied =>
    let l := LazyHashMap.lazilyLoad encodeK m store k
    (l.1, l.2.value)
  | EntryKind.Vacant => LazyHashMap.vacantInsert encodeK m store k v

/-! ## Stash

Modelled from the spec: the storage2 `Stash` implementation is not
under `src/` (only `stash/impls.rs` is).  The spec describes a slot
array of `Occupied(T) | Vacant{prev,next}` entries, a header tracking
the element count, and a vacant-slot list whose head is the first
vacant entry; `put` reuses the head vacant slot (or appends), `take`
vacates a slot, and `defrag(max_iter, cb)` walks the index space from
the end downwards, moving each occupied slot to a vacant slot below it
and reporting `(old_index, new_index, &value)` to the callback,
stopping after `max_iter` moves.  The doubly linked vacant list is
represented implicitly: its head is the first (smallest) vacant
index. -/

inductive Slot (T : Type) : Type
  | Vacant
  | Occupied (t : T)
deriving DecidableEq

structure Stash (T : Type) : Type where
  len : Nat
  entries : List (Slot T)
deriving DecidableEq

def Stash.new {T : Type} : Stash T :=
  { len := 0, entries := [] }

/-- Number of slots of the stash, occupied or vacant (`len_entries`). -/
def Stash.capacity {T : Type} (st : Stash T) : Nat :=
  st.entries.length

def Stash.getEntry {T : Type} (st : Stash T) (i : Nat) : Slot T :=
  st.entries.getD i Slot.Vacant

/-- `Stash::get`: the element at slot `i`, when occupied. -/
def Stash.get {T : Type} (st : Stash T) (i : Nat) : Option T :=
  match st.getEntry i with
  | Slot.Occupied t => some t
  | Slot.Vacant => none

def Stash.isVacantAt {T : Type} (st : Stash T) (i : Nat) : Bool :=
  match st.getEntry i with
  | Slot.Vacant => true
  | Slot.Occupied _ => false

/-- Head of the vacant list: the first vacant slot. -/
def Stash.firstVacant {T : Type} (st : Stash T) : Option Nat :=
  (List.range st.capacity).find? st.isVacantAt

/-- `Stash::put`: occupy the head vacant slot, or append a new slot;
returns the used index. -/
def Stash.put {T : Type} (st : Stash T) (t : T) : Nat × Stash T :=
  match st.firstVacant with
  | some i => (i, { len := st.len + 1, entries := st.entries.set i (Slot.Occupied t) })
  | none => (st.capacity, { len := st.len + 1, entries := st.entries ++ [Slot.Occupied t] })

/-- `Stash::take`: vacate slot `i` and return its element, if occupied. -/
def Stash.take {T : Type} (st : Stash T) (i : Nat) : Option T × Stash T :=
  match st.get i with
  | some t => (some t, { len := st.len - 1, entries := st.entries.set i Slot.Vacant })
  | none => (none, st)

def Stash.firstVacantBelow {T : Type} (st : Stash T) (i : Nat) : Option Nat :=
  (List.range i).find? st.isVacantAt

def Stash.moveEntry {T : Type} (st : Stash T) (i j : Nat) (t : T) : Stash T :=
  { st with entries := (st.entries.set j (Slot.Occupied t)).set i Slot.Vacant }

/-- `Stash::defrag` threading a callback state `σ` through the moves:
the first argument counts down through the index space (starting at
`capacity`, so slot `capacity - 1` is visited first), the second is
the remaining number of allowed moves. -/
def Stash.defragWith {T σ : Type} (cb : σ → Nat → Nat → T → σ) :
    Nat → Nat → Stash T → σ → Stash T × σ
  | 0, _, st, s => (st, s)
  | i + 1, moves, st, s =>
    if moves = 0 then (st, s)
    else
      match st.getEntry i with
      | Slot.Occupied t =>
        match st.firstVacantBelow i with
        | some j => Stash.defragWith cb i (moves - 1) (st.moveEntry i j t) (cb s i j t)
        | none => Stash.defragWith cb i moves st s
      | Slot.Vacant => Stash.defragWith cb i moves st s

/-! ## The storage2 HashMap -/

/-- `ValueEntry` of the storage hash map: the value plus the index of
its key in the key stash. -/
structure ValueEntry (V : Type) : Type where
  value : V
  keyIndex : Nat
deriving DecidableEq

/-- `storage2::HashMap`: a key stash plus a lazy hash map from keys to
`ValueEntry`s. -/
structure StorageHashMap (K V : Type) : Type where
  keys : Stash K
  values : LazyHashMap K (ValueEntry V)
deriving DecidableEq

def StorageHashMap.new {K V : Type} : StorageHashMap K V :=
  { keys := Stash.new, values := LazyHashMap.new }

/-- `HashMap::insert`: when `values.get_mut(&key)` finds an entry,
replace only its `value` field (through the returned `&mut`) and
return the old value; otherwise put the key into the stash and store a
`ValueEntry` carrying the fresh key index. -/
def StorageHashMap.insert {K V : Type} [DecidableEq K] (encodeK : K → List Nat)
    (m : StorageHashMap K V) (store : List Nat → Option (ValueEntry V)) (k : K) (v : V) :
    StorageHashMap K V × Option V :=
  let loaded := LazyHashMap.getMutUpdate encodeK m.values store k fun w => { w with value := v }
  match loaded.2 with
  | some w => ({ m with values := loaded.1 }, some w.value)
  | none =>
    let putKeys := m.keys.put k
    ({ keys := putKeys.2,
       values := LazyHashMap.put loaded.1 k (some { value := v, keyIndex := putKeys.1 }) },
      none)

/-- `HashMap::take`: `values.put_get(key, None)?`, then remove the key
from the stash at the entry's key index (the `expect` on that take is
benign under the coherence invariant and is dropped here). -/
def StorageHashMap.take {K V : Type} [DecidableEq K] (encodeK : K → List Nat)
    (m : StorageHashMap K V) (store : List Nat → Option (ValueEntry V)) (k : K) :
    StorageHashMap K V × Option V :=
  let removed := LazyHashMap.putGet encodeK m.values store k none
  match removed.2 with
  | none => ({ m with values := removed.1 }, none)
  | some e =>
    let takeKeys := m.keys.take e.keyIndex
    ({ keys := takeKeys.2, values := removed.1 }, some e.value)

/-- `HashMap::defrag`: defragment the key stash; the callback rewrites
`key_index` of the moved key's value entry to the new index (source:
`values.get_mut(key).expect("key must be valid").key_index = new_index`). -/
def StorageHashMap.defrag {K V : Type} [DecidableEq K] (encodeK : K → List Nat)
    (m : StorageHashMap K V) (store : List Nat → Option (ValueEntry V))
    (maxIterations : Option Nat) : StorageHashMap K V :=
  let lenVacant := m.keys.capacity - m.keys.len
  let maxIter := maxIterations.getD lenVacant
  let cb : LazyHashMap K (ValueEntry V) → Nat → Nat → K → LazyHashMap K (ValueEntry V) :=
    fun values _oldIndex newIndex k =>
      (LazyHashMap.getMutUpdate encodeK values store k fun w => { w with keyIndex := newIndex }).1
  let res := Stash.defragWith cb m.keys.capacity maxIter m.keys m.values
  { keys := res.1, values := res.2 }

/-- Value held by the cache of a `LazyHashMap` under key `k` (`none`
both for an uncached key and for a cached known-absent entry). -/
def LazyHashMap.cacheValue {K W : Type} [DecidableEq K] (m : LazyHashMap K W) (k : K) :
    Option W :=
  match alup m.cachedEntries k with
  | some e => e.value
  | none => none

/-- Logical content of the value map of a `StorageHashMap` whose lazy
hash map is in fresh state (no anchor): the cached entry's value. -/
def StorageHashMap.valueOf {K V : Type} [DecidableEq K] (m : StorageHashMap K V) (k : K) :
    Option (ValueEntry V) :=
  LazyHashMap.cacheValue m.values k

/-- One public mutating operation of the storage hash map. -/
inductive HashMapOp (K V : Type) : Type
  | ins (k : K) (v : V)
  | tak (k : K)
  | defragment (maxIterations : Option Nat)

def StorageHashMap.applyOp {K V : Type} [DecidableEq K] (encodeK : K → List Nat)
    (store : List Nat → Option (ValueEntry V)) (m : StorageHashMap K V) :
    HashMapOp K V → StorageHashMap K V
  | HashMapOp.ins k v => (StorageHashMap.insert encodeK m store k v).1
  | HashMapOp.tak k => (StorageHashMap.take encodeK m store k).1
  | HashMapOp.defragment n => StorageHashMap.defrag encodeK m store n

def StorageHashMap.runOps {K V : Type} [DecidableEq K] (encodeK : K → List Nat)
    (store : List Nat → Option (ValueEntry V)) (m : StorageHashMap K V) :
    List (HashMapOp K V) → StorageHashMap K V
  | [] => m
  | op :: rest =>
      StorageHashMap.runOps encodeK store (StorageHashMap.applyOp encodeK store m op) rest

/-- HashMap ⇄ Stash coherence: every live value entry points back to
the stash slot holding exactly its key, and every live stash key has
exactly one value entry, namely the one under that key with the
matching back-link. -/
def StorageHashMap.coherent {K V : Type} [DecidableEq K] (m : StorageHashMap K V) : Prop :=
  (∀ k e, m.valueOf k = some e → m.keys.get e.keyIndex = some k) ∧
  (∀ i k, m.keys.get i = some k → ∃ e, m.valueOf k = some e ∧ e.keyIndex = i)

/-! ## Dynamic allocator (old storage tree)

The two free lists are storage bit vectors; modelled from the spec:
`storage::BitVec` is not under `src/` — a bit `true` means "slot
free", `first_set_position` is the first-fit scan, `set` writes a bit
and `push` appends one. -/

def firstSetPosition (bv : List Bool) : Option Nat :=
  bv.findIdx? fun b => b

structure DynAlloc : Type where
  freeCells : List Bool
  freeChunks : List Bool
  cellsOrigin : Nat
  chunksOrigin : Nat
deriving DecidableEq

/-- `DynAlloc::alloc_cell`: consume the first set bit of `free_cells`
(first-fit) or push a new `false` bit; the returned key is
`cells_origin + offset`. -/
def DynAlloc.allocCell (a : DynAlloc) : Nat × DynAlloc :=
  match firstSetPosition a.freeCells with
  | some free => (addKey a.cellsOrigin free, { a with freeCells := a.freeCells.set free false })
  | none =>
    (addKey a.cellsOrigin a.freeCells.length, { a with freeCells := a.freeCells ++ [false] })

/-- `DynAlloc::alloc_chunk`: same on `free_chunks`, but the key is
`chunks_origin + (1 << 32) * offset`. -/
def DynAlloc.allocChunk (a : DynAlloc) : Nat × DynAlloc :=
  match firstSetPosition a.freeChunks with
  | some free =>
    (addKey a.chunksOrigin (2 ^ 32 * free), { a with freeChunks := a.freeChunks.set free false })
  | none =>
    (addKey a.chunksOrigin (2 ^ 32 * a.freeChunks.length),
      { a with freeChunks := a.freeChunks ++ [false] })

/-- `Allocate::alloc` for `DynAlloc`: sizes `0` and `> u32::MAX` are
`assert!` panics; size `1` goes to `alloc_cell`, anything else to
`alloc_chunk`. -/
def DynAlloc.alloc (a : DynAlloc) (size : Nat) : Option (Nat × DynAlloc) :=
  if size > 2 ^ 32 - 1 then none
  else if size = 0 then none
  else if size = 1 then some a.allocCell
  else some a.allocChunk

/-- Wrapping 256-bit key difference `key - origin`. -/
def keyDiff (key origin : Nat) : Nat :=
  (key + KEYSPACE - origin % KEYSPACE) % KEYSPACE

/-- `DynAlloc::dealloc_cell`: `(key - cells_origin)` must fit `u32`
(the `expect` of `try_to_u32` is the `none` case); set that bit of
`free_cells` to `true`. -/
def DynAlloc.deallocCell (a : DynAlloc) (key : Nat) : Option DynAlloc :=
  let diff := keyDiff key a.cellsOrigin
  if diff < 2 ^ 32 then some { a with freeCells := a.freeCells.set diff true } else none

/-- `DynAlloc::dealloc_chunk`: `(key - chunks_origin)` must fit `u64`;
the bit position is the difference shifted right by 32 bits. -/
def DynAlloc.deallocChunk (a : DynAlloc) (key : Nat) : Option DynAlloc :=
  let diff := keyDiff key a.chunksOrigin
  if diff < 2 ^ 64 then some { a with freeChunks := a.freeChunks.set (diff / 2 ^ 32) true }
  else none

/-- `Allocator::dealloc` for `DynAlloc`: keys below `chunks_origin`
are cell keys, all others are chunk keys. -/
def DynAlloc.dealloc (a : DynAlloc) (key : Nat) : Option DynAlloc :=
  if key < a.chunksOrigin then a.deallocCell key else a.deallocChunk key

/-! ## BTreeMap node storage (old storage tree)

`BTreeMap::put`/`remove_node` operate on the header and the
`SyncChunk` of `InternalEntry`s; the chunk (not under `src/`) is a
typed cell array, embedded as an association list with `get`/`set`
(overwrite) /`put` (overwrite returning the old value) semantics.  The
node payload stays an abstract type `N`. -/

inductive InternalEntry (N : Type) : Type
  | Vacant (next : Option Nat)
  | Occupied (node : N)
deriving DecidableEq

structure BTreeHeader : Type where
  nextVacant : Option Nat
  root : Option Nat
  len : Nat
  nodeCount : Nat
deriving DecidableEq

structure BTreeNodeStore (N : Type) : Type where
  header : BTreeHeader
  entries : List (Nat × InternalEntry N)
deriving DecidableEq

/-- `BTreeMap::put`: with no vacant head, append the node at index
`node_count`; otherwise occupy the vacant head, replacing
`next_vacant` by the `next` field read from the consumed vacant entry
(`none` models the `expect`/`unreachable!` panics when the vacant head
is missing or occupied).  Either way `node_count` grows by one and the
used index is returned. -/
def BTreeNodeStore.put {N : Type} (st : BTreeNodeStore N) (node : N) :
    Option (Nat × BTreeNodeStore N) :=
  match st.header.nextVacant with
  | none =>
    some (st.header.nodeCount,
      { header := { st.header with nodeCount := st.header.nodeCount + 1 },
        entries := aset st.entries st.header.nodeCount (InternalEntry.Occupied node) })
  | some currentVacant =>
    match alup st.entries currentVacant with
    | some (InternalEntry.Vacant nv) =>
      some (currentVacant,
        { header := { st.header with nextVacant := nv, nodeCount := st.header.nodeCount + 1 },
          entries := aset st.entries currentVacant (InternalEntry.Occupied node) })
    | _ => none

/-- `BTreeMap::remove_node`: an occupied entry is replaced by
`Vacant(next_vacant)`, `next_vacant` becomes the removed index and
`node_count` shrinks by one; missing or vacant entries are left
alone. -/
def BTreeNodeStore.removeNode {N : Type} (st : BTreeNodeStore N) (n : Nat) :
    BTreeNodeStore N :=
  match alup st.entries n with
  | some (InternalEntry.Occupied _) =>
    { header := { st.header with nextVacant := some n, nodeCount := st.header.nodeCount - 1 },
      entries := aset st.entries n (InternalEntry.Vacant st.header.nextVacant) }
  | _ => st

/-! ## Read-only access sequences (for the write-minimality claim) -/

/-- Apply a sequence of `LazyIndexMap::get` read accesses, keeping
only the cache side effect. -/
def LazyIndexMap.applyGets {V : Type} (m : LazyIndexMap V) (store : Nat → Option V) :
    List Nat → LazyIndexMap V
  | [] => m
  | i :: rest => LazyIndexMap.applyGets (m.get store i).1 store rest

/-- Apply a sequence of `LazyHashMap::get` read accesses. -/
def LazyHashMap.applyGetsH {K W : Type} [DecidableEq K] (encodeK : K → List Nat)
    (m : LazyHashMap K W) (store : List Nat → Option W) :
    List K → LazyHashMap K W
  | [] => m
  | k :: rest => LazyHashMap.applyGetsH encodeK (LazyHashMap.get encodeK m store k).1 store rest

/-- Apply `n` `LazyCell::get` read accesses. -/
def LazyCell.applyGetsC {V : Type} (c : LazyCell V) (store : Nat → Option V) :
    Nat → LazyCell V
  | 0 => c
  | n + 1 => LazyCell.applyGetsC (c.get store).1 store n

/-- Every cached entry is in state `Preserved` (no write-back due). -/
def allPreserved {V : Type} (l : List (Nat × Entry V)) : Prop :=
  ∀ p ∈ l, (Prod.snd p).state = EntryState.Preserved

/-- Every cached entry of a hash-map cache is in state `Preserved`. -/
def allPreservedH {K W : Type} (l : List (K × Entry W)) : Prop :=
  ∀ p ∈ l, (Prod.snd p).state = EntryState.Preserved

/-! ## Helper lemmas -/

theorem alup_aset_self {α β : Type} [DecidableEq α] (l : List (α × β)) (k : α) (v : β) :
    alup (aset l k v) k = some v := by
  induction l with
  | nil => simp [aset, alup]
  | cons p rest ih =>
    obtain ⟨a, b⟩ := p
    by_cases h : k = a
    · subst h
      simp [aset, alup]
    · simp [aset, alup, h, ih]

theorem alup_aset_ne {α β : Type} [DecidableEq α] (l : List (α × β)) (k q : α) (v : β)
    (h : q ≠ k) : alup (aset l k v) q = alup l q := by
  induction l with
  | nil => simp [aset, alup, h]
  | cons p rest ih =>
    obtain ⟨a, b⟩ := p
    by_cases hk : k = a
    · subst hk
      simp [aset, alup, h]
    · by_cases hq : q = a
      · subst hq
        simp [aset, alup, hk, Ne.symm hk]
      · simp [aset, alup, hk, hq, ih]

theorem mem_aset {α β : Type} [DecidableEq α] (l : List (α × β)) (k : α) (v : β) :
    ∀ p ∈ aset l k v, p ∈ l ∨ p = (k, v) := by
  induction l with
  | nil =>
    intro p hp
    simp [aset] at hp
    simp [hp]
  | cons q rest ih =>
    obtain ⟨a, b⟩ := q
    intro p hp
    by_cases h : k = a
    · subst h
      simp [aset] at hp
      rcases hp with hp | hp
      · right
        simp [hp]
      · left
        simp [hp]
    · simp [aset, h] at hp
      rcases hp with hp | hp
      · left
        simp [hp]
      · rcases ih p hp with h1 | h1
        · left
          simp [h1]
        · right
          exact h1

theorem getD_set_self {α : Type} (l : List α) (i : Nat) (a d : α) (h : i < l.length) :
    (l.set i a).getD i d = a := by
  induction l generalizing i with
  | nil => simp at h
  | cons x xs ih =>
    cases i with
    | zero => simp
    | succ j =>
      simp only [List.set]
      simpa using ih j (by simpa using h)

theorem getD_set_ne {α : Type} (l : List α) (i j : Nat) (a d : α) (h : i ≠ j) :
    (l.set i a).getD j d = l.getD j d := by
  induction l generalizing i j with
  | nil => simp
  | cons x xs ih =>
    cases i with
    | zero =>
      cases j with
      | zero => exact absurd rfl h
      | succ j' => simp
    | succ i' =>
      cases j with
      | zero => simp
      | succ j' =>
        simp only [List.set]
        simpa using ih i' j' (by omega)

/-! ## Claim C1 -/

/-- Claim C1 (code bug witness): `LazyIndexMap::clear_packed_at(i)`
reads `root_key` from `self.key` without adding the index, so for a
map anchored at key `5` and index `1` the cleared host cell is `5`
(the anchor itself, the cell of index `0`) and **not** `anchor + 1 = 6`
as the claim (and the function's own doc comment, and the
`LazyHashMap` sibling, which uses `self.key_at(index)`) requires. -/
theorem imap_clearPackedAt_clears_anchor_not_index_cell :
    LazyIndexMap.clearPackedAtOps (V := Nat) (LazyIndexMap.lazyAt 5) 1 =
        some [HostOp.clear 5]
    ∧ addKey 5 1 = 6
    ∧ LazyIndexMap.clearPackedAtOps (V := Nat) (LazyIndexMap.lazyAt 5) 1 ≠
        some [HostOp.clear (addKey 5 1)] := by
  refine ⟨rfl, by decide, by decide⟩

/-! ## Claim C8 -/

/-- Claim C8: `BTreeMap::put` appends at index `node_count` when
`next_vacant` is `None` and otherwise occupies the vacant head after
reading its `next` field into `next_vacant`; both paths increment
`node_count` and return the used index.  `remove_node` turns an
occupied entry into `Vacant(next_vacant)`, points `next_vacant` at the
removed index and decrements `node_count`.  Entries other than the
touched one are never changed. -/
theorem btree_put_removeNode_spec {N : Type} (st : BTreeNodeStore N) (node : N) (n : Nat) :
    (st.header.nextVacant = none →
      ∃ st', BTreeNodeStore.put st node = some (st.header.nodeCount, st')
        ∧ alup st'.entries st.header.nodeCount = some (InternalEntry.Occupied node)
        ∧ (∀ j, j ≠ st.header.nodeCount → alup st'.entries j = alup st.entries j)
        ∧ st'.header.nodeCount = st.header.nodeCount + 1
        ∧ st'.header.nextVacant = none)
    ∧ (∀ cv nv, st.header.nextVacant = some cv →
        alup st.entries cv = some (InternalEntry.Vacant nv) →
        ∃ st', BTreeNodeStore.put st node = some (cv, st')
          ∧ alup st'.entries cv = some (InternalEntry.Occupied node)
          ∧ (∀ j, j ≠ cv → alup st'.entries j = alup st.entries j)
          ∧ st'.header.nodeCount = st.header.nodeCount + 1
          ∧ st'.header.nextVacant = nv)
    ∧ (∀ x, alup st.entries n = some (InternalEntry.Occupied x) →
        alup (BTreeNodeStore.removeNode st n).entries n =
            some (InternalEntry.Vacant st.header.nextVacant)
        ∧ (∀ j, j ≠ n →
            alup (BTreeNodeStore.removeNode st n).entries j = alup st.entries j)
        ∧ (BTreeNodeStore.removeNode st n).header.nextVacant = some n
        ∧ (BTreeNodeStore.removeNode st n).header.nodeCount = st.header.nodeCount - 1) := by
  refine ⟨?_, ?_, ?_⟩
  · intro hnv
    have hput : BTreeNodeStore.put st node = some (st.header.nodeCount,
        ⟨⟨none, st.header.root, st.header.len, st.header.nodeCount + 1⟩,
          aset st.entries st.header.nodeCount (InternalEntry.Occupied node)⟩) := by
      simp [BTreeNodeStore.put, hnv]
    refine ⟨_, hput, ?_, ?_, rfl, rfl⟩
    · exact alup_aset_self ..
    · intro j hj
      exact alup_aset_ne _ _ _ _ hj
  · intro cv nv hnv hcv
    have hput : BTreeNodeStore.put st node = some (cv,
        ⟨⟨nv, st.header.root, st.header.len, st.header.nodeCount + 1⟩,
          aset st.entries cv (InternalEntry.Occupied node)⟩) := by
      simp [BTreeNodeStore.put, hnv, hcv]
    refine ⟨_, hput, ?_, ?_, rfl, rfl⟩
    · exact alup_aset_self ..
    · intro j hj
      exact alup_aset_ne _ _ _ _ hj
  · intro x hx
    refine ⟨?_, ?_, ?_, ?_⟩
    · simp only [BTreeNodeStore.removeNode, hx]
      exact alup_aset_self ..
    · intro j hj
      simp only [BTreeNodeStore.removeNode, hx]
      exact alup_aset_ne _ _ _ _ hj
    · simp [BTreeNodeStore.removeNode, hx]
    · simp [BTreeNodeStore.removeNode, hx]

/-- Witness for C8 at concrete inputs: a store whose vacant head is
index `0` with `next = none`, carrying an occupied node at index `1`;
all three parts of the specification are checked there. -/
theorem btree_put_removeNode_spec_witness :
    (∃ st', BTreeNodeStore.put
        ({ header := { nextVacant := none, root := some 1, len := 1, nodeCount := 2 },
           entries := [(0, InternalEntry.Occupied 5), (1, InternalEntry.Occupied 7)] } :
          BTreeNodeStore Nat) 9 = some (2, st')
      ∧ alup st'.entries 2 = some (InternalEntry.Occupied 9)
      ∧ (∀ j, j ≠ 2 → alup st'.entries j =
          alup [(0, InternalEntry.Occupied 5), (1, InternalEntry.Occupied 7)] j)
      ∧ st'.header.nodeCount = 3
      ∧ st'.header.nextVacant = none)
    ∧ (∃ st', BTreeNodeStore.put
        ({ header := { nextVacant := some 0, root := some 1, len := 1, nodeCount := 1 },
           entries := [(0, InternalEntry.Vacant none), (1, InternalEntry.Occupied 7)] } :
          BTreeNodeStore Nat) 9 = some (0, st')
      ∧ alup st'.entries 0 = some (InternalEntry.Occupied 9)
      ∧ (∀ j, j ≠ 0 → alup st'.entries j =
          alup [(0, InternalEntry.Vacant none), (1, InternalEntry.Occupied 7)] j)
      ∧ st'.header.nodeCount = 2
      ∧ st'.header.nextVacant = none)
    ∧ (alup (BTreeNodeStore.removeNode
        ({ header := { nextVacant := some 0, root := some 1, len := 1, nodeCount := 1 },
           entries := [(0, InternalEntry.Vacant none), (1, InternalEntry.Occupied 7)] } :
          BTreeNodeStore Nat) 1).entries 1 = some (InternalEntry.Vacant (some 0))
      ∧ (BTreeNodeStore.removeNode
        ({ header := { nextVacant := some 0, root := some 1, len := 1, nodeCount := 1 },
           entries := [(0, InternalEntry.Vacant none), (1, InternalEntry.Occupied 7)] } :
          BTreeNodeStore Nat) 1).header.nextVacant = some 1) := by
  refine ⟨?_, ?_, ?_⟩
  · exact (btree_put_removeNode_spec _ 9 0).1 rfl
  · exact (btree_put_removeNode_spec _ 9 0).2.1 0 none rfl rfl
  · have h := (btree_put_removeNode_spec
        ({ header := { nextVacant := some 0, root := some 1, len := 1, nodeCount := 1 },
           entries := [(0, InternalEntry.Vacant none), (1, InternalEntry.Occupied 7)] } :
          BTreeNodeStore Nat) 9 1).2.2 7 rfl
    exact ⟨h.1, h.2.2.1⟩

/-! ## Claim C7 -/

/-- Claim C7: `alloc` sends size `1` to `alloc_cell` and every size in
`(1, u32::MAX]` to `alloc_chunk`; `alloc_cell` consumes the first set
bit of `free_cells` (returning `cells_origin + offset`) or appends a
`false` bit (returning `cells_origin + len`); `alloc_chunk` does the
same on `free_chunks` with the offset shifted left by 32 bits; and
`dealloc` routes keys below `chunks_origin` to the cell bitmap and all
other keys to the chunk bitmap, setting the corresponding bit to
`true`.  Each allocation path leaves the other bitmap and both origins
untouched. -/
theorem dyn_alloc_spec (a : DynAlloc) (size key : Nat) :
    DynAlloc.alloc a 1 = some a.allocCell
    ∧ (1 < size → size ≤ 2 ^ 32 - 1 → DynAlloc.alloc a size = some a.allocChunk)
    ∧ (∀ p, firstSetPosition a.freeCells = some p →
        a.allocCell.1 = addKey a.cellsOrigin p
        ∧ a.allocCell.2.freeCells = a.freeCells.set p false
        ∧ a.allocCell.2.freeChunks = a.freeChunks
        ∧ a.allocCell.2.cellsOrigin = a.cellsOrigin
        ∧ a.allocCell.2.chunksOrigin = a.chunksOrigin)
    ∧ (firstSetPosition a.freeCells = none →
        a.allocCell.1 = addKey a.cellsOrigin a.freeCells.length
        ∧ a.allocCell.2.freeCells = a.freeCells ++ [false]
        ∧ a.allocCell.2.freeChunks = a.freeChunks)
    ∧ (∀ p, firstSetPosition a.freeChunks = some p →
        a.allocChunk.1 = addKey a.chunksOrigin (2 ^ 32 * p)
        ∧ a.allocChunk.2.freeChunks = a.freeChunks.set p false
        ∧ a.allocChunk.2.freeCells = a.freeCells)
    ∧ (firstSetPosition a.freeChunks = none →
        a.allocChunk.1 = addKey a.chunksOrigin (2 ^ 32 * a.freeChunks.length)
        ∧ a.allocChunk.2.freeChunks = a.freeChunks ++ [false]
        ∧ a.allocChunk.2.freeCells = a.freeCells)
    ∧ (key < a.chunksOrigin → keyDiff key a.cellsOrigin < 2 ^ 32 →
        DynAlloc.dealloc a key =
          some { a with freeCells := a.freeCells.set (keyDiff key a.cellsOrigin) true })
    ∧ (¬ key < a.chunksOrigin → keyDiff key a.chunksOrigin < 2 ^ 64 →
        DynAlloc.dealloc a key =
          some { a with
            freeChunks := a.freeChunks.set (keyDiff key a.chunksOrigin / 2 ^ 32) true }) := by
  refine ⟨?_, ?_, ?_, ?_, ?_, ?_, ?_, ?_⟩
  · have h32 : ¬ (1 > 2 ^ 32 - 1) := by norm_num
    simp [DynAlloc.alloc, h32]
  · intro h1 h2
    have h32 : ¬ (size > 2 ^ 32 - 1) := by omega
    have h0 : ¬ (size = 0) := by omega
    have hne : ¬ (size = 1) := by omega
    simp [DynAlloc.alloc, h32, h0, hne]
    norm_num at h2
    omega
  · intro p hp
    simp [DynAlloc.allocCell, hp]
  · intro hp
    simp [DynAlloc.allocCell, hp]
  · intro p hp
    simp [DynAlloc.allocChunk, hp]
  · intro hp
    simp [DynAlloc.allocChunk, hp]
  · intro hroute hfit
    norm_num at hfit
    simp [DynAlloc.dealloc, DynAlloc.deallocCell, hroute, hfit]
  · intro hroute hfit
    norm_num at hfit
    simp [DynAlloc.dealloc, DynAlloc.deallocChunk, hroute, hfit]

/-- Witness for C7 at concrete inputs: the allocator with free lists
`[false, true]` / `[true]` and origins `100 < 200`, checking the
chunk dispatch, the first-fit cell path, the appending cell path (on
an empty bitmap) and both `dealloc` routes. -/
theorem dyn_alloc_spec_witness :
    DynAlloc.alloc ⟨[false, true], [true], 100, 200⟩ 2 =
        some (DynAlloc.allocChunk ⟨[false, true], [true], 100, 200⟩)
    ∧ (DynAlloc.allocCell ⟨[false, true], [true], 100, 200⟩).1 = addKey 100 1
    ∧ (DynAlloc.allocCell ⟨[], [], 100, 200⟩).1 =
        addKey 100 (List.length ([] : List Bool))
    ∧ DynAlloc.dealloc ⟨[false, true], [true], 100, 200⟩ 101 =
        some ⟨([false, true] : List Bool).set (keyDiff 101 100) true, [true], 100, 200⟩
    ∧ DynAlloc.dealloc ⟨[false, true], [true], 100, 200⟩ 200 =
        some ⟨[false, true], ([true] : List Bool).set (keyDiff 200 200 / 2 ^ 32) true,
          100, 200⟩ := by
  refine ⟨?_, ?_, ?_, ?_, ?_⟩
  · exact (dyn_alloc_spec ⟨[false, true], [true], 100, 200⟩ 2 0).2.1 (by norm_num) (by norm_num)
  · exact ((dyn_alloc_spec ⟨[false, true], [true], 100, 200⟩ 2 0).2.2.1 1 rfl).1
  · exact ((dyn_alloc_spec ⟨[], [], 100, 200⟩ 2 0).2.2.2.1 rfl).1
  · exact (dyn_alloc_spec ⟨[false, true], [true], 100, 200⟩ 2 101).2.2.2.2.2.2.1
      (by norm_num) (by decide)
  · exact (dyn_alloc_spec ⟨[false, true], [true], 100, 200⟩ 2 200).2.2.2.2.2.2.2
      (by norm_num) (by decide)

/-! ## Claim C10 -/

/-- Claim C10: dropping a `LazyCell` created in lazy state whose cache
was never filled performs no host operation at all (so the backing
store is untouched), and the `Drop` implementation can only issue a
clear when both a key and a cached entry are present.  The drop model
takes no store argument at all: the source `Drop` never loads. -/
theorem lazycell_drop_frame {V : Type} (k : Nat) (store : Nat → Option V) :
    LazyCell.dropOps (V := V) (LazyCell.lazyAt k) = []
    ∧ applyOps store (LazyCell.dropOps (V := V) (LazyCell.lazyAt k)) = store
    ∧ (∀ c : LazyCell V, c.dropOps ≠ [] → c.key.isSome = true ∧ c.cache.isSome = true) := by
  refine ⟨rfl, rfl, ?_⟩
  intro c hne
  obtain ⟨ckey, ccache⟩ := c
  cases ckey with
  | none => exact absurd rfl hne
  | some kk =>
    cases ccache with
    | none => exact absurd rfl hne
    | some e => exact ⟨rfl, rfl⟩

/-- Witness for C10: instantiated at `V = Nat`, key `7`, the empty
store, and — for the only-clear-when-present part — a cell holding
both a key and a mutated cache entry. -/
theorem lazycell_drop_frame_witness :
    LazyCell.dropOps (V := Nat) (LazyCell.lazyAt 7) = []
    ∧ ((⟨some 7, some ⟨some 1, EntryState.Mutated⟩⟩ : LazyCell Nat).key.isSome = true
        ∧ (⟨some 7, some ⟨some 1, EntryState.Mutated⟩⟩ : LazyCell Nat).cache.isSome = true) := by
  have h := lazycell_drop_frame (V := Nat) 7 fun _ => none
  exact ⟨h.1, h.2.2 ⟨some 7, some ⟨some 1, EntryState.Mutated⟩⟩ (by decide)⟩

/-! ## Claim C2 -/

set_option maxRecDepth 1000000 in
/-- Claim C2: the derived storage cell key of a `LazyHashMap` equals
the hash of the 11-byte tag `b"ink hashmap"`, the 32 anchor bytes and
the SCALE encoding of the map key; repeated calls yield the same key
(the embedding of `to_offset_key` is a pure function, so this is
definitional); and at anchor `0x42 … 42` with key `0_i32` under
BLAKE2b-256 the derived key is exactly
`677ED3A4722A836096650ECD1F2CE85DBF7EC0FF16408AD87588DE52F58B99AF`,
matching the regression value asserted by `tests::key_at_works`. -/
theorem hmap_derived_key_spec (anchor encodedKey : List Nat) (k : Int)
    (m : LazyHashMap Int Nat) (storageKey : List Nat) :
    toOffsetKey anchor encodedKey = derivedKeySpec anchor encodedKey
    ∧ LazyHashMap.keyAt scaleEncodeI32 (LazyHashMap.lazyAt (K := Int) (W := Nat) storageKey) k
        = some (blake2b256 (inkHashmapTag ++ storageKey ++ scaleEncodeI32 k))
    ∧ LazyHashMap.keyAt scaleEncodeI32 m k = LazyHashMap.keyAt scaleEncodeI32 m k
    ∧ toOffsetKey (List.replicate 32 0x42) (scaleEncodeI32 0) =
        [0x67, 0x7E, 0xD3, 0xA4, 0x72, 0x2A, 0x83, 0x60, 0x96, 0x65, 0x0E, 0xCD, 0x1F, 0x2C,
         0xE8, 0x5D, 0xBF, 0x7E, 0xC0, 0xFF, 0x16, 0x40, 0x8A, 0xD8, 0x75, 0x88, 0xDE, 0x52,
         0xF5, 0x8B, 0x99, 0xAF] := by
  exact ⟨rfl, rfl, rfl, by decide⟩

/-! ## Claim C9 -/

/-- Claim C9: `LazyHashMap::entry(k)` inspects only the in-memory
cache (its embedding takes no store argument at all), so on a freshly
pulled map every key is reported `Vacant` even when its derived cell
holds a value on disk; `entry(k).or_insert(v)` then inserts `v` as a
`Mutated` cache entry, returns `v` rather than the stored value, and a
subsequent `push_spread` overwrites the stored value at the derived
cell key with `v`. -/
theorem hmap_entry_cache_only {W : Type} [DecidableEq W] (anchor : List Nat) (k : Int)
    (w v : W) (store : List Nat → Option W)
    (hdisk : store (toOffsetKey anchor (scaleEncodeI32 k)) = some w) :
    LazyHashMap.entryKind (LazyHashMap.pullSpread (K := Int) (W := W) anchor) k =
        EntryKind.Vacant
    ∧ (LazyHashMap.entryOrInsert scaleEncodeI32
        (LazyHashMap.pullSpread (K := Int) (W := W) anchor) store k v).2 = some v
    ∧ alup (LazyHashMap.entryOrInsert scaleEncodeI32
        (LazyHashMap.pullSpread (K := Int) (W := W) anchor) store k v).1.cachedEntries k =
        some ⟨some v, EntryState.Mutated⟩
    ∧ applyOps store
        (LazyHashMap.pushSpreadOps scaleEncodeI32
          (LazyHashMap.entryOrInsert scaleEncodeI32
            (LazyHashMap.pullSpread (K := Int) (W := W) anchor) store k v).1 anchor)
        (toOffsetKey anchor (scaleEncodeI32 k)) = some v := by
  refine ⟨rfl, ?_, ?_, ?_⟩
  · simp [LazyHashMap.entryOrInsert, LazyHashMap.entryKind, LazyHashMap.pullSpread,
      LazyHashMap.lazyAt, LazyHashMap.vacantInsert, LazyHashMap.put, LazyHashMap.lazilyLoad,
      alup, aset]
  · simp [LazyHashMap.entryOrInsert, LazyHashMap.entryKind, LazyHashMap.pullSpread,
      LazyHashMap.lazyAt, LazyHashMap.vacantInsert, LazyHashMap.put, LazyHashMap.lazilyLoad,
      alup, aset]
  · simp [LazyHashMap.entryOrInsert, LazyHashMap.entryKind, LazyHashMap.pullSpread,
      LazyHashMap.lazyAt, LazyHashMap.vacantInsert, LazyHashMap.put, LazyHashMap.lazilyLoad,
      LazyHashMap.pushSpreadOps, entriesPushOpsH, Entry.pushPackedRootOpsH,
      applyOps, applyOp, alup, aset]

/-- Witness for C9: anchor `0x42 … 42`, key `0_i32`, stored value `5`
on disk at the derived cell, insert of `9`; the hypothesis is
discharged by the store picked as exactly that one-cell store. -/
theorem hmap_entry_cache_only_witness :
    LazyHashMap.entryKind (LazyHashMap.pullSpread (K := Int) (W := Nat)
        (List.replicate 32 0x42)) 0 = EntryKind.Vacant
    ∧ (LazyHashMap.entryOrInsert scaleEncodeI32
        (LazyHashMap.pullSpread (K := Int) (W := Nat) (List.replicate 32 0x42))
        (fun q => if q = toOffsetKey (List.replicate 32 0x42) (scaleEncodeI32 0)
          then some 5 else none) 0 9).2 = some 9 := by
  have h := hmap_entry_cache_only (List.replicate 32 0x42) 0 5 9
    (fun q => if q = toOffsetKey (List.replicate 32 0x42) (scaleEncodeI32 0)
      then some 5 else none) (by simp)
  exact ⟨h.1, h.2.1⟩

/-! ## Lazily-load cache lemmas -/

theorem imap_load_key {V : Type} (m : LazyIndexMap V) (store : Nat → Option V) (i : Nat) :
    (m.lazilyLoad store i).1.key = m.key := by
  cases h : alup m.cachedEntries i <;> simp [LazyIndexMap.lazilyLoad, h]

theorem imap_load_cache_self {V : Type} (m : LazyIndexMap V) (store : Nat → Option V)
    (i : Nat) :
    alup (m.lazilyLoad store i).1.cachedEntries i = some (m.lazilyLoad store i).2 := by
  cases h : alup m.cachedEntries i with
  | some e => simp [LazyIndexMap.lazilyLoad, h]
  | none => simp [LazyIndexMap.lazilyLoad, h, alup_aset_self]

theorem imap_load_cache_ne {V : Type} (m : LazyIndexMap V) (store : Nat → Option V)
    (i j : Nat) (hj : j ≠ i) :
    alup (m.lazilyLoad store i).1.cachedEntries j = alup m.cachedEntries j := by
  cases h : alup m.cachedEntries i with
  | some e => simp [LazyIndexMap.lazilyLoad, h]
  | none => simp [LazyIndexMap.lazilyLoad, h, alup_aset_ne _ _ _ _ hj]

theorem imap_load_uncached {V : Type} (m : LazyIndexMap V) (store : Nat → Option V)
    (i : Nat) (h : alup m.cachedEntries i = none) :
    (m.lazilyLoad store i).2 = ⟨m.loadValue store i, EntryState.Preserved⟩ := by
  simp [LazyIndexMap.lazilyLoad, h]

theorem hmap_load_cache_self {K W : Type} [DecidableEq K] (encodeK : K → List Nat)
    (m : LazyHashMap K W) (store : List Nat → Option W) (k : K) :
    alup (LazyHashMap.lazilyLoad encodeK m store k).1.cachedEntries k =
      some (LazyHashMap.lazilyLoad encodeK m store k).2 := by
  cases h : alup m.cachedEntries k with
  | some e => simp [LazyHashMap.lazilyLoad, h]
  | none => simp [LazyHashMap.lazilyLoad, h, alup_aset_self]

theorem hmap_load_cache_ne {K W : Type} [DecidableEq K] (encodeK : K → List Nat)
    (m : LazyHashMap K W) (store : List Nat → Option W) (k q : K) (hq : q ≠ k) :
    alup (LazyHashMap.lazilyLoad encodeK m store k).1.cachedEntries q =
      alup m.cachedEntries q := by
  cases h : alup m.cachedEntries k with
  | some e => simp [LazyHashMap.lazilyLoad, h]
  | none => simp [LazyHashMap.lazilyLoad, h, alup_aset_ne _ _ _ _ hq]

theorem hmap_load_uncached {K W : Type} [DecidableEq K] (encodeK : K → List Nat)
    (m : LazyHashMap K W) (store : List Nat → Option W) (k : K)
    (h : alup m.cachedEntries k = none) :
    (LazyHashMap.lazilyLoad encodeK m store k).2 =
      ⟨LazyHashMap.loadValue encodeK m store k, EntryState.Preserved⟩ := by
  simp [LazyHashMap.lazilyLoad, h]

/-! ## Claim C6 -/

/-- Claim C6: for both `LazyIndexMap::swap` and `LazyHashMap::swap`:
equal indices change nothing; with distinct indices both entries are
lazily loaded and, if both loaded values are `None`, nothing beyond
the lazy loads changes — in particular two previously uncached entries
are cached `Preserved` — while otherwise the two values are exchanged,
both entries are marked `Mutated`, and all other cached entries stay
as after the loads. -/
theorem lazy_swap_spec {V : Type} {K : Type} [DecidableEq K] (encodeK : K → List Nat)
    (m : LazyIndexMap V) (store : Nat → Option V) (x y : Nat)
    (mh : LazyHashMap K V) (storeH : List Nat → Option V) (xh yh : K) :
    (x = y → m.swap store x y = m)
    ∧ (x ≠ y → (m.lazilyLoad store x).2.value = none →
        ((m.lazilyLoad store x).1.lazilyLoad store y).2.value = none →
        m.swap store x y = ((m.lazilyLoad store x).1.lazilyLoad store y).1)
    ∧ (x ≠ y → alup m.cachedEntries x = none → alup m.cachedEntries y = none →
        (m.lazilyLoad store x).2.value = none →
        ((m.lazilyLoad store x).1.lazilyLoad store y).2.value = none →
        alup (m.swap store x y).cachedEntries x =
          some ⟨none, EntryState.Preserved⟩
        ∧ alup (m.swap store x y).cachedEntries y =
          some ⟨none, EntryState.Preserved⟩)
    ∧ (x ≠ y → ¬ ((m.lazilyLoad store x).2.value = none ∧
          ((m.lazilyLoad store x).1.lazilyLoad store y).2.value = none) →
        alup (m.swap store x y).cachedEntries x =
          some ⟨((m.lazilyLoad store x).1.lazilyLoad store y).2.value, EntryState.Mutated⟩
        ∧ alup (m.swap store x y).cachedEntries y =
          some ⟨(m.lazilyLoad store x).2.value, EntryState.Mutated⟩
        ∧ ∀ z, z ≠ x → z ≠ y →
            alup (m.swap store x y).cachedEntries z =
              alup ((m.lazilyLoad store x).1.lazilyLoad store y).1.cachedEntries z)
    ∧ (xh = yh → LazyHashMap.swap encodeK mh storeH xh yh = mh)
    ∧ (xh ≠ yh → (LazyHashMap.lazilyLoad encodeK mh storeH xh).2.value = none →
        (LazyHashMap.lazilyLoad encodeK
          (LazyHashMap.lazilyLoad encodeK mh storeH xh).1 storeH yh).2.value = none →
        LazyHashMap.swap encodeK mh storeH xh yh =
          (LazyHashMap.lazilyLoad encodeK
            (LazyHashMap.lazilyLoad encodeK mh storeH xh).1 storeH yh).1)
    ∧ (xh ≠ yh → alup mh.cachedEntries xh = none → alup mh.cachedEntries yh = none →
        (LazyHashMap.lazilyLoad encodeK mh storeH xh).2.value = none →
        (LazyHashMap.lazilyLoad encodeK
          (LazyHashMap.lazilyLoad encodeK mh storeH xh).1 storeH yh).2.value = none →
        alup (LazyHashMap.swap encodeK mh storeH xh yh).cachedEntries xh =
          some ⟨none, EntryState.Preserved⟩
        ∧ alup (LazyHashMap.swap encodeK mh storeH xh yh).cachedEntries yh =
          some ⟨none, EntryState.Preserved⟩)
    ∧ (xh ≠ yh → ¬ ((LazyHashMap.lazilyLoad encodeK mh storeH xh).2.value = none ∧
          (LazyHashMap.lazilyLoad encodeK
            (LazyHashMap.lazilyLoad encodeK mh storeH xh).1 storeH yh).2.value = none) →
        alup (LazyHashMap.swap encodeK mh storeH xh yh).cachedEntries xh =
          some ⟨(LazyHashMap.lazilyLoad encodeK
            (LazyHashMap.lazilyLoad encodeK mh storeH xh).1 storeH yh).2.value,
            EntryState.Mutated⟩
        ∧ alup (LazyHashMap.swap encodeK mh storeH xh yh).cachedEntries yh =
          some ⟨(LazyHashMap.lazilyLoad encodeK mh storeH xh).2.value, EntryState.Mutated⟩) := by
  constructor
  · intro hxy
    simp [LazyIndexMap.swap, hxy]
  constructor
  · intro hxy hvx hvy
    simp [LazyIndexMap.swap, hxy, hvx, hvy]
  constructor
  · intro hxy hcx hcy hvx hvy
    have hswap : m.swap store x y = ((m.lazilyLoad store x).1.lazilyLoad store y).1 := by
      simp [LazyIndexMap.swap, hxy, hvx, hvy]
    have hm1y : alup (m.lazilyLoad store x).1.cachedEntries y = none := by
      rw [imap_load_cache_ne _ _ _ _ (Ne.symm hxy)]
      exact hcy
    constructor
    · rw [hswap, imap_load_cache_ne _ _ _ _ hxy, imap_load_cache_self]
      rw [imap_load_uncached _ _ _ hcx] at hvx ⊢
      simp only [Entry.value] at hvx
      simp [hvx]
    · rw [hswap, imap_load_cache_self]
      rw [imap_load_uncached _ _ _ hm1y] at hvy ⊢
      simp only [Entry.value] at hvy
      simp [hvy]
  constructor
  · intro hxy hnot
    have hbool : ((m.lazilyLoad store x).2.value.isNone &&
        ((m.lazilyLoad store x).1.lazilyLoad store y).2.value.isNone) = false := by
      rcases Option.eq_none_or_eq_some (m.lazilyLoad store x).2.value with h1 | ⟨a, h1⟩
      · rcases Option.eq_none_or_eq_some
            ((m.lazilyLoad store x).1.lazilyLoad store y).2.value with h2 | ⟨b, h2⟩
        · exact absurd ⟨h1, h2⟩ hnot
        · simp [h1, h2]
      · simp [h1]
    have hswap : m.swap store x y =
        { ((m.lazilyLoad store x).1.lazilyLoad store y).1 with
          cachedEntries := aset
            (aset ((m.lazilyLoad store x).1.lazilyLoad store y).1.cachedEntries x
              ⟨((m.lazilyLoad store x).1.lazilyLoad store y).2.value, EntryState.Mutated⟩)
            y ⟨(m.lazilyLoad store x).2.value, EntryState.Mutated⟩ } := by
      simp [LazyIndexMap.swap, hxy, hbool]
    refine ⟨?_, ?_, ?_⟩
    · rw [hswap]
      simp only
      rw [alup_aset_ne _ _ _ _ hxy, alup_aset_self]
    · rw [hswap]
      simp only
      rw [alup_aset_self]
    · intro z hzx hzy
      rw [hswap]
      simp only
      rw [alup_aset_ne _ _ _ _ hzy, alup_aset_ne _ _ _ _ hzx]
  constructor
  · intro hxy
    simp [LazyHashMap.swap, hxy]
  constructor
  · intro hxy hvx hvy
    simp [LazyHashMap.swap, hxy, hvx, hvy]
  constructor
  · intro hxy hcx hcy hvx hvy
    have hswap : LazyHashMap.swap encodeK mh storeH xh yh =
        (LazyHashMap.lazilyLoad encodeK
          (LazyHashMap.lazilyLoad encodeK mh storeH xh).1 storeH yh).1 := by
      simp [LazyHashMap.swap, hxy, hvx, hvy]
    have hm1y : alup (LazyHashMap.lazilyLoad encodeK mh storeH xh).1.cachedEntries yh =
        none := by
      rw [hmap_load_cache_ne _ _ _ _ _ (Ne.symm hxy)]
      exact hcy
    constructor
    · rw [hswap, hmap_load_cache_ne _ _ _ _ _ hxy, hmap_load_cache_self]
      rw [hmap_load_uncached _ _ _ _ hcx] at hvx ⊢
      simp only [Entry.value] at hvx
      simp [hvx]
    · rw [hswap, hmap_load_cache_self]
      rw [hmap_load_uncached _ _ _ _ hm1y] at hvy ⊢
      simp only [Entry.value] at hvy
      simp [hvy]
  · intro hxy hnot
    have hbool : ((LazyHashMap.lazilyLoad encodeK mh storeH xh).2.value.isNone &&
        (LazyHashMap.lazilyLoad encodeK
          (LazyHashMap.lazilyLoad encodeK mh storeH xh).1 storeH yh).2.value.isNone) =
        false := by
      rcases Option.eq_none_or_eq_some
          (LazyHashMap.lazilyLoad encodeK mh storeH xh).2.value with h1 | ⟨a, h1⟩
      · rcases Option.eq_none_or_eq_some
            (LazyHashMap.lazilyLoad encodeK
              (LazyHashMap.lazilyLoad encodeK mh storeH xh).1 storeH yh).2.value with
            h2 | ⟨b, h2⟩
        · exact absurd ⟨h1, h2⟩ hnot
        · simp [h1, h2]
      · simp [h1]
    have hswap : LazyHashMap.swap encodeK mh storeH xh yh =
        { (LazyHashMap.lazilyLoad encodeK
            (LazyHashMap.lazilyLoad encodeK mh storeH xh).1 storeH yh).1 with
          cachedEntries := aset
            (aset (LazyHashMap.lazilyLoad encodeK
                (LazyHashMap.lazilyLoad encodeK mh storeH xh).1 storeH yh).1.cachedEntries
              xh ⟨(LazyHashMap.lazilyLoad encodeK
                (LazyHashMap.lazilyLoad encodeK mh storeH xh).1 storeH yh).2.value,
                EntryState.Mutated⟩)
            yh ⟨(LazyHashMap.lazilyLoad encodeK mh storeH xh).2.value,
              EntryState.Mutated⟩ } := by
      simp [LazyHashMap.swap, hxy, hbool]
    constructor
    · rw [hswap]
      simp only
      rw [alup_aset_ne _ _ _ _ hxy, alup_aset_self]
    · rw [hswap]
      simp only
      rw [alup_aset_self]

/-- Witness for C6: a map holding `Some 1` at index `1` (cached
mutated via `put`), swapped with the uncached index `2` over the empty
store; and the equal-indices and both-`None` cases at indices `3`,
`4`; the hash-map half is exercised with integer keys on the encoding
`scaleEncodeI32`. -/
theorem lazy_swap_spec_witness :
    LazyIndexMap.swap (LazyIndexMap.put (LazyIndexMap.new (V := Nat)) 3 (some 1))
        (fun _ => none) 3 3 =
      LazyIndexMap.put (LazyIndexMap.new (V := Nat)) 3 (some 1)
    ∧ alup (LazyIndexMap.swap (LazyIndexMap.put (LazyIndexMap.new (V := Nat)) 1 (some 1))
        (fun _ => none) 1 2).cachedEntries 2 = some ⟨some 1, EntryState.Mutated⟩
    ∧ LazyHashMap.swap scaleEncodeI32 (LazyHashMap.new (K := Int) (W := Nat))
        (fun _ => none) 3 4 =
      (LazyHashMap.lazilyLoad scaleEncodeI32
        (LazyHashMap.lazilyLoad scaleEncodeI32 (LazyHashMap.new (K := Int) (W := Nat))
          (fun _ => none) 3).1 (fun _ => none) 4).1 := by
  refine ⟨?_, ?_, ?_⟩
  · exact (lazy_swap_spec scaleEncodeI32
      (LazyIndexMap.put (LazyIndexMap.new (V := Nat)) 3 (some 1)) (fun _ => none) 3 3
      (LazyHashMap.new (K := Int) (W := Nat)) (fun _ => none) 0 0).1 rfl
  · have h := ((lazy_swap_spec scaleEncodeI32
      (LazyIndexMap.put (LazyIndexMap.new (V := Nat)) 1 (some 1)) (fun _ => none) 1 2
      (LazyHashMap.new (K := Int) (W := Nat)) (fun _ => none) 0 0).2.2.2.1
        (by decide) (by decide)).2.1
    simpa [LazyIndexMap.lazilyLoad, LazyIndexMap.put, LazyIndexMap.new, alup, aset] using h
  · exact (lazy_swap_spec scaleEncodeI32 (LazyIndexMap.new (V := Nat)) (fun _ => none) 0 0
      (LazyHashMap.new (K := Int) (W := Nat)) (fun _ => none) 3 4).2.2.2.2.2.1
        (by decide) (by decide) (by decide)

/-! ## Write-minimality lemmas -/

theorem allPreserved_load {V : Type} (m : LazyIndexMap V) (store : Nat → Option V)
    (i : Nat) (h : allPreserved m.cachedEntries) :
    allPreserved (m.lazilyLoad store i).1.cachedEntries := by
  cases hc : alup m.cachedEntries i with
  | some e => simpa [LazyIndexMap.lazilyLoad, hc] using h
  | none =>
    simp only [LazyIndexMap.lazilyLoad, hc]
    intro p hp
    rcases mem_aset _ _ _ p hp with h1 | h1
    · exact h p h1
    · simp [h1]

theorem allPreserved_applyGets {V : Type} (store : Nat → Option V) (reads : List Nat) :
    ∀ m : LazyIndexMap V, allPreserved m.cachedEntries →
      allPreserved (m.applyGets store reads).cachedEntries := by
  induction reads with
  | nil =>
    intro m h
    exact h
  | cons i rest ih =>
    intro m h
    exact ih _ (allPreserved_load m store i h)

theorem entriesPushOps_of_preserved {V : Type} (offsetKey : Nat)
    (l : List (Nat × Entry V)) (h : allPreserved l) : entriesPushOps offsetKey l = [] := by
  induction l with
  | nil => rfl
  | cons p rest ih =>
    obtain ⟨i, e⟩ := p
    have hs : e.state = EntryState.Preserved := h (i, e) (by simp)
    have hrest : allPreserved rest := fun q hq => h q (by simp [hq])
    simp [entriesPushOps, Entry.pushPackedRootOps, hs, ih hrest]

theorem allPreservedH_load {K W : Type} [DecidableEq K] (encodeK : K → List Nat)
    (m : LazyHashMap K W) (store : List Nat → Option W) (k : K)
    (h : allPreservedH m.cachedEntries) :
    allPreservedH (LazyHashMap.lazilyLoad encodeK m store k).1.cachedEntries := by
  cases hc : alup m.cachedEntries k with
  | some e => simpa [LazyHashMap.lazilyLoad, hc] using h
  | none =>
    simp only [LazyHashMap.lazilyLoad, hc]
    intro p hp
    rcases mem_aset _ _ _ p hp with h1 | h1
    · exact h p h1
    · simp [h1]

theorem allPreservedH_applyGets {K W : Type} [DecidableEq K] (encodeK : K → List Nat)
    (store : List Nat → Option W) (reads : List K) :
    ∀ m : LazyHashMap K W, allPreservedH m.cachedEntries →
      allPreservedH (LazyHashMap.applyGetsH encodeK m store reads).cachedEntries := by
  induction reads with
  | nil =>
    intro m h
    exact h
  | cons k rest ih =>
    intro m h
    exact ih _ (allPreservedH_load encodeK m store k h)

theorem entriesPushOpsH_of_preserved {K W : Type} (encodeK : K → List Nat)
    (offsetKey : List Nat) (l : List (K × Entry W)) (h : allPreservedH l) :
    entriesPushOpsH encodeK offsetKey l = [] := by
  induction l with
  | nil => rfl
  | cons p rest ih =>
    obtain ⟨k, e⟩ := p
    have hs : e.state = EntryState.Preserved := h (k, e) (by simp)
    have hrest : allPreservedH rest := fun q hq => h q (by simp [hq])
    simp [entriesPushOpsH, Entry.pushPackedRootOpsH, hs, ih hrest]

/-- State of a `LazyCell` cache that produces no write-back. -/
def cellPreserved {V : Type} (c : LazyCell V) : Prop :=
  c.cache = none ∨ ∃ value, c.cache = some ⟨value, EntryState.Preserved⟩

theorem cellPreserved_get {V : Type} (c : LazyCell V) (store : Nat → Option V)
    (h : cellPreserved c) : cellPreserved (c.get store).1 := by
  rcases h with h | ⟨value, h⟩
  · right
    exact ⟨c.loadValue store, by simp [LazyCell.get, LazyCell.loadThroughCache, h]⟩
  · right
    exact ⟨value, by simp [LazyCell.get, LazyCell.loadThroughCache, h]⟩

theorem cellPreserved_applyGetsC {V : Type} (store : Nat → Option V) (n : Nat) :
    ∀ c : LazyCell V, cellPreserved c → cellPreserved (c.applyGetsC store n) := by
  induction n with
  | zero =>
    intro c h
    exact h
  | succ k ih =>
    intro c h
    exact ih _ (cellPreserved_get c store h)

theorem entriesPushOps_mem {V : Type} (offsetKey : Nat) (l : List (Nat × Entry V)) :
    ∀ op ∈ entriesPushOps offsetKey l, ∃ i e, (i, e) ∈ l ∧ e.state = EntryState.Mutated ∧
      ((∃ v, e.value = some v ∧ op = HostOp.set (addKey offsetKey i) v) ∨
        (e.value = none ∧ op = HostOp.clear (addKey offsetKey i))) := by
  induction l with
  | nil =>
    intro op hop
    simp [entriesPushOps] at hop
  | cons p rest ih =>
    obtain ⟨i, e⟩ := p
    intro op hop
    simp only [entriesPushOps, List.mem_append] at hop
    rcases hop with hop | hop
    · refine ⟨i, e, by simp, ?_⟩
      cases hs : e.state with
      | Preserved => simp [Entry.pushPackedRootOps, hs] at hop
      | Mutated =>
        cases hv : e.value with
        | none =>
          simp only [Entry.pushPackedRootOps, hs, hv, List.mem_singleton] at hop
          exact ⟨rfl, Or.inr ⟨rfl, hop⟩⟩
        | some v =>
          simp only [Entry.pushPackedRootOps, hs, hv, List.mem_singleton] at hop
          exact ⟨rfl, Or.inl ⟨v, rfl, hop⟩⟩
    · obtain ⟨i', e', hmem, hrest⟩ := ih op hop
      exact ⟨i', e', by simp [hmem], hrest⟩

/-! ## Claim C5 -/

/-- Claim C5: after pulling a lazy container and performing only read
accesses, `push_spread` issues no host operation at all (in
particular, no `set`): every cached entry of such a container is in
state `Preserved` and `push_spread` writes only `Mutated` entries —
the final conjunct characterises every emitted operation as stemming
from a `Mutated` cached entry, a `set` of the encoded value when the
value is present and a `clear` of the cell when it is absent. -/
theorem push_spread_write_minimality {V : Type} {K : Type} [DecidableEq K]
    (encodeK : K → List Nat) (anchor : Nat) (anchorH : List Nat)
    (store : Nat → Option V) (storeH : List Nat → Option V)
    (reads : List Nat) (readsH : List K) (nReads : Nat)
    (pushKey : Nat) (pushKeyH : List Nat) :
    LazyIndexMap.pushSpreadOps
        ((LazyIndexMap.pullSpread (V := V) anchor).applyGets store reads) pushKey = []
    ∧ LazyHashMap.pushSpreadOps encodeK
        (LazyHashMap.applyGetsH encodeK (LazyHashMap.pullSpread (K := K) (W := V) anchorH)
          storeH readsH) pushKeyH = []
    ∧ LazyCell.pushSpreadOps
        ((LazyCell.pullSpread (V := V) anchor).applyGetsC store nReads) pushKey = []
    ∧ (∀ mm : LazyIndexMap V, ∀ op ∈ mm.pushSpreadOps pushKey,
        ∃ i e, (i, e) ∈ mm.cachedEntries ∧ e.state = EntryState.Mutated ∧
          ((∃ v, e.value = some v ∧ op = HostOp.set (addKey pushKey i) v) ∨
            (e.value = none ∧ op = HostOp.clear (addKey pushKey i)))) := by
  refine ⟨?_, ?_, ?_, ?_⟩
  · have hempty : allPreserved (LazyIndexMap.pullSpread (V := V) anchor).cachedEntries := by
      intro p hp
      simp [LazyIndexMap.pullSpread, LazyIndexMap.lazyAt] at hp
    exact entriesPushOps_of_preserved _ _ (allPreserved_applyGets store reads _ hempty)
  · have hempty : allPreservedH
        (LazyHashMap.pullSpread (K := K) (W := V) anchorH).cachedEntries := by
      intro p hp
      simp [LazyHashMap.pullSpread, LazyHashMap.lazyAt] at hp
    exact entriesPushOpsH_of_preserved _ _ _
      (allPreservedH_applyGets encodeK storeH readsH _ hempty)
  · have h := cellPreserved_applyGetsC store nReads (LazyCell.pullSpread (V := V) anchor)
      (Or.inl rfl)
    rcases h with h | ⟨value, h⟩
    · simp [LazyCell.pushSpreadOps, h]
    · simp [LazyCell.pushSpreadOps, h, Entry.pushPackedRootOps]
  · exact fun mm => entriesPushOps_mem pushKey mm.cachedEntries

/-- Witness for C5: reads on concrete pulled containers over a
one-cell store produce no write-back, and the sole operation pushed by
a map holding one mutated entry is the `set` of that entry's value at
its owned cell. -/
theorem push_spread_write_minimality_witness :
    LazyIndexMap.pushSpreadOps
        ((LazyIndexMap.pullSpread (V := Nat) 3).applyGets (fun _ => some 1) [0, 5, 0]) 3 = []
    ∧ (∃ i e, (i, e) ∈ (LazyIndexMap.put (LazyIndexMap.new (V := Nat)) 0 (some 5)).cachedEntries
        ∧ e.state = EntryState.Mutated ∧
          ((∃ v, e.value = some v ∧
              HostOp.set (addKey 3 0) 5 = HostOp.set (addKey 3 i) v) ∨
            (e.value = none ∧
              HostOp.set (addKey 3 0) 5 = HostOp.clear (addKey 3 i)))) := by
  have h := push_spread_write_minimality (K := Int) scaleEncodeI32 3 (List.replicate 32 0x42)
    (fun _ => some 1) (fun _ => none) [0, 5, 0] [] 2 3 (List.replicate 32 0x42)
  refine ⟨h.1, ?_⟩
  exact h.2.2.2 (LazyIndexMap.put (LazyIndexMap.new (V := Nat)) 0 (some 5))
    (HostOp.set (addKey 3 0) 5) (by simp [LazyIndexMap.pushSpreadOps, LazyIndexMap.put,
      LazyIndexMap.new, aset, entriesPushOps, Entry.pushPackedRootOps])

/-! ## Cache-operation lemmas for the hash map -/

theorem hmap_load_value_eq_cacheValue {K W : Type} [DecidableEq K] (encodeK : K → List Nat)
    (m : LazyHashMap K W) (store : List Nat → Option W) (k : K) (hkey : m.key = none) :
    (LazyHashMap.lazilyLoad encodeK m store k).2.value = LazyHashMap.cacheValue m k := by
  cases hc : alup m.cachedEntries k with
  | some e => simp [LazyHashMap.lazilyLoad, LazyHashMap.cacheValue, hc]
  | none =>
    simp [LazyHashMap.lazilyLoad, LazyHashMap.cacheValue, LazyHashMap.loadValue,
      LazyHashMap.keyAt, hc, hkey]

theorem hmap_load_fst_key {K W : Type} [DecidableEq K] (encodeK : K → List Nat)
    (m : LazyHashMap K W) (store : List Nat → Option W) (k : K) :
    (LazyHashMap.lazilyLoad encodeK m store k).1.key = m.key := by
  cases hc : alup m.cachedEntries k <;> simp [LazyHashMap.lazilyLoad, hc]

theorem hmap_getMutUpdate_snd {K W : Type} [DecidableEq K] (encodeK : K → List Nat)
    (m : LazyHashMap K W) (store : List Nat → Option W) (k : K) (f : W → W) :
    (LazyHashMap.getMutUpdate encodeK m store k f).2 =
      (LazyHashMap.lazilyLoad encodeK m store k).2.value := by
  cases hv : (LazyHashMap.lazilyLoad encodeK m store k).2.value <;>
    simp [LazyHashMap.getMutUpdate, hv]

theorem hmap_getMutUpdate_cacheValue_self {K W : Type} [DecidableEq K]
    (encodeK : K → List Nat) (m : LazyHashMap K W) (store : List Nat → Option W) (k : K)
    (f : W → W) :
    LazyHashMap.cacheValue (LazyHashMap.getMutUpdate encodeK m store k f).1 k =
      ((LazyHashMap.lazilyLoad encodeK m store k).2.value).map f := by
  cases hv : (LazyHashMap.lazilyLoad encodeK m store k).2.value with
  | some w =>
    simp [LazyHashMap.getMutUpdate, hv, LazyHashMap.cacheValue, alup_aset_self]
  | none =>
    have h := hmap_load_cache_self encodeK m store k
    simp only [LazyHashMap.getMutUpdate, hv]
    simp [LazyHashMap.cacheValue, h, hv]

theorem hmap_getMutUpdate_cacheValue_ne {K W : Type} [DecidableEq K]
    (encodeK : K → List Nat) (m : LazyHashMap K W) (store : List Nat → Option W) (k q : K)
    (f : W → W) (hq : q ≠ k) :
    LazyHashMap.cacheValue (LazyHashMap.getMutUpdate encodeK m store k f).1 q =
      LazyHashMap.cacheValue m q := by
  have hload := hmap_load_cache_ne encodeK m store k q hq
  cases hv : (LazyHashMap.lazilyLoad encodeK m store k).2.value with
  | some w =>
    simp [LazyHashMap.getMutUpdate, hv, LazyHashMap.cacheValue,
      alup_aset_ne _ _ _ _ hq, hload]
  | none =>
    simp [LazyHashMap.getMutUpdate, hv, LazyHashMap.cacheValue, hload]

theorem hmap_getMutUpdate_key {K W : Type} [DecidableEq K] (encodeK : K → List Nat)
    (m : LazyHashMap K W) (store : List Nat → Option W) (k : K) (f : W → W) :
    (LazyHashMap.getMutUpdate encodeK m store k f).1.key = m.key := by
  have h := hmap_load_fst_key encodeK m store k
  cases hv : (LazyHashMap.lazilyLoad encodeK m store k).2.value <;>
    simp [LazyHashMap.getMutUpdate, hv, h]

theorem hmap_putGet_snd {K W : Type} [DecidableEq K] (encodeK : K → List Nat)
    (m : LazyHashMap K W) (store : List Nat → Option W) (k : K) (w : Option W) :
    (LazyHashMap.putGet encodeK m store k w).2 =
      (LazyHashMap.lazilyLoad encodeK m store k).2.value := by
  cases hv : (LazyHashMap.lazilyLoad encodeK m store k).2.value with
  | some a =>
    cases w <;> simp [LazyHashMap.putGet, Entry.put, hv]
  | none =>
    cases w <;> simp [LazyHashMap.putGet, Entry.put, hv]

theorem hmap_putGet_none_cacheValue_self {K W : Type} [DecidableEq K]
    (encodeK : K → List Nat) (m : LazyHashMap K W) (store : List Nat → Option W) (k : K) :
    LazyHashMap.cacheValue (LazyHashMap.putGet encodeK m store k none).1 k = none := by
  cases hv : (LazyHashMap.lazilyLoad encodeK m store k).2.value with
  | some a =>
    simp [LazyHashMap.putGet, Entry.put, hv, LazyHashMap.cacheValue, alup_aset_self]
  | none =>
    simp only [LazyHashMap.putGet, Entry.put, hv]
    simp [LazyHashMap.cacheValue, alup_aset_self, hv]

theorem hmap_putGet_cacheValue_ne {K W : Type} [DecidableEq K] (encodeK : K → List Nat)
    (m : LazyHashMap K W) (store : List Nat → Option W) (k q : K) (w : Option W)
    (hq : q ≠ k) :
    LazyHashMap.cacheValue (LazyHashMap.putGet encodeK m store k w).1 q =
      LazyHashMap.cacheValue m q := by
  have hload := hmap_load_cache_ne encodeK m store k q hq
  cases hv : (LazyHashMap.lazilyLoad encodeK m store k).2.value with
  | some a =>
    cases w <;>
      simp [LazyHashMap.putGet, Entry.put, hv, LazyHashMap.cacheValue,
        alup_aset_ne _ _ _ _ hq, hload]
  | none =>
    cases w <;>
      simp [LazyHashMap.putGet, Entry.put, hv, LazyHashMap.cacheValue,
        alup_aset_ne _ _ _ _ hq, hload]

theorem hmap_putGet_key {K W : Type} [DecidableEq K] (encodeK : K → List Nat)
    (m : LazyHashMap K W) (store : List Nat → Option W) (k : K) (w : Option W) :
    (LazyHashMap.putGet encodeK m store k w).1.key = m.key := by
  have h := hmap_load_fst_key encodeK m store k
  cases hv : (LazyHashMap.lazilyLoad encodeK m store k).2.value with
  | some a => cases w <;> simp [LazyHashMap.putGet, Entry.put, hv, h]
  | none => cases w <;> simp [LazyHashMap.putGet, Entry.put, hv, h]

theorem hmap_put_cacheValue_self {K W : Type} [DecidableEq K] (m : LazyHashMap K W)
    (k : K) (w : Option W) :
    LazyHashMap.cacheValue (LazyHashMap.put m k w) k = w := by
  simp [LazyHashMap.put, LazyHashMap.cacheValue, alup_aset_self]

theorem hmap_put_cacheValue_ne {K W : Type} [DecidableEq K] (m : LazyHashMap K W)
    (k q : K) (w : Option W) (hq : q ≠ k) :
    LazyHashMap.cacheValue (LazyHashMap.put m k w) q = LazyHashMap.cacheValue m q := by
  simp [LazyHashMap.put, LazyHashMap.cacheValue, alup_aset_ne _ _ _ _ hq]

theorem hmap_put_key {K W : Type} [DecidableEq K] (m : LazyHashMap K W) (k : K)
    (w : Option W) : (LazyHashMap.put m k w).key = m.key := by
  simp [LazyHashMap.put]

/-! ## Stash lemmas -/

theorem getD_append_self {α : Type} (l : List α) (a d : α) :
    (l ++ [a]).getD l.length d = a := by
  induction l with
  | nil => simp
  | cons x xs ih => simpa using ih

theorem getD_append_lt {α : Type} (l : List α) (a d : α) (j : Nat) (h : j < l.length) :
    (l ++ [a]).getD j d = l.getD j d := by
  induction l generalizing j with
  | nil => simp at h
  | cons x xs ih =>
    cases j with
    | zero => simp
    | succ j' => simpa using ih j' (by simpa using h)

theorem getD_of_le {α : Type} (l : List α) (d : α) (j : Nat) (h : l.length ≤ j) :
    l.getD j d = d := by
  induction l generalizing j with
  | nil => simp
  | cons x xs ih =>
    cases j with
    | zero => simp at h
    | succ j' => simpa using ih j' (by simpa using h)

theorem stash_get_none_of_ge {T : Type} (st : Stash T) (i : Nat)
    (h : st.capacity ≤ i) : st.get i = none := by
  simp only [Stash.get, Stash.getEntry]
  rw [getD_of_le st.entries Slot.Vacant i h]

theorem stash_isVacantAt_iff {T : Type} (st : Stash T) (i : Nat) :
    st.isVacantAt i = true ↔ st.get i = none := by
  cases h : st.getEntry i <;> simp [Stash.isVacantAt, Stash.get, h]

theorem stash_get_lt_of_some {T : Type} (st : Stash T) (i : Nat) (t : T)
    (h : st.get i = some t) : i < st.capacity := by
  by_contra hge
  rw [stash_get_none_of_ge st i (by omega)] at h
  exact Option.noConfusion h

theorem stash_put_spec {T : Type} (st : Stash T) (t : T) :
    st.get (st.put t).1 = none
    ∧ (st.put t).2.get (st.put t).1 = some t
    ∧ (∀ j, j ≠ (st.put t).1 → (st.put t).2.get j = st.get j) := by
  cases hfv : st.firstVacant with
  | some i =>
    have hvac : st.isVacantAt i = true := List.find?_some hfv
    have hlt : i < st.capacity := List.mem_range.mp (List.mem_of_find?_eq_some hfv)
    refine ⟨?_, ?_, ?_⟩
    · simpa [Stash.put, hfv] using (stash_isVacantAt_iff st i).mp hvac
    · simp only [Stash.put, hfv]
      simp only [Stash.get, Stash.getEntry]
      rw [getD_set_self _ _ _ _ hlt]
    · intro j hj
      simp only [Stash.put, hfv] at hj ⊢
      simp only [Stash.get, Stash.getEntry]
      rw [getD_set_ne _ _ _ _ _ (Ne.symm hj)]
  | none =>
    refine ⟨?_, ?_, ?_⟩
    · simpa [Stash.put, hfv] using stash_get_none_of_ge st st.capacity (le_refl _)
    · simp only [Stash.put, hfv]
      simp only [Stash.get, Stash.getEntry, Stash.capacity]
      rw [getD_append_self]
    · intro j hj
      simp only [Stash.put, hfv] at hj ⊢
      rcases Nat.lt_or_ge j st.capacity with hlt | hge
      · simp only [Stash.get, Stash.getEntry]
        rw [getD_append_lt _ _ _ _ hlt]
      · have hj' : st.capacity < j := by
          rcases Nat.eq_or_lt_of_le hge with h | h
          · exact absurd h.symm hj
          · exact h
        have h1 : st.get j = none := stash_get_none_of_ge st j (by omega)
        have h2 : (st.entries ++ [Slot.Occupied t]).getD j Slot.Vacant = Slot.Vacant := by
          apply getD_of_le
          simp only [List.length_append, List.length_cons, List.length_nil]
          have : st.capacity = st.entries.length := rfl
          omega
        rw [h1]
        simp only [Stash.get, Stash.getEntry]
        rw [h2]
  
theorem stash_take_spec {T : Type} (st : Stash T) (i : Nat) :
    (∀ t, st.get i = some t →
      (st.take i).1 = some t ∧ (st.take i).2.get i = none ∧
        ∀ j, j ≠ i → (st.take i).2.get j = st.get j)
    ∧ (st.get i = none → st.take i = (none, st)) := by
  constructor
  · intro t ht
    have hlt : i < st.capacity := stash_get_lt_of_some st i t ht
    refine ⟨by simp [Stash.take, ht], ?_, ?_⟩
    · simp only [Stash.take, ht]
      simp only [Stash.get, Stash.getEntry]
      rw [getD_set_self _ _ _ _ hlt]
    · intro j hj
      simp only [Stash.take, ht]
      simp only [Stash.get, Stash.getEntry]
      rw [getD_set_ne _ _ _ _ _ (Ne.symm hj)]
  · intro h
    simp [Stash.take, h]

theorem stash_move_spec {T : Type} (st : Stash T) (i j : Nat) (t : T) (hji : j ≠ i)
    (hj : j < st.capacity) :
    (st.moveEntry i j t).get j = some t
    ∧ (st.moveEntry i j t).get i = none
    ∧ ∀ z, z ≠ i → z ≠ j → (st.moveEntry i j t).get z = st.get z := by
  refine ⟨?_, ?_, ?_⟩
  · simp only [Stash.moveEntry, Stash.get, Stash.getEntry]
    rw [getD_set_ne _ _ _ _ _ (Ne.symm hji), getD_set_self _ _ _ _ (by simpa using hj)]
  · rcases Nat.lt_or_ge i ((st.entries.set j (Slot.Occupied t)).length) with hlt | hge
    · simp only [Stash.moveEntry, Stash.get, Stash.getEntry]
      rw [getD_set_self _ _ _ _ hlt]
    · have h2 : ((st.entries.set j (Slot.Occupied t)).set i Slot.Vacant).getD i
          Slot.Vacant = Slot.Vacant := by
        apply getD_of_le
        simpa using (by simpa using hge)
      simp only [Stash.moveEntry, Stash.get, Stash.getEntry]
      rw [h2]
  · intro z hzi hzj
    simp only [Stash.moveEntry, Stash.get, Stash.getEntry]
    rw [getD_set_ne _ _ _ _ _ (Ne.symm hzi), getD_set_ne _ _ _ _ _ (Ne.symm hzj)]

theorem stash_firstVacantBelow_spec {T : Type} (st : Stash T) (i j : Nat)
    (h : st.firstVacantBelow i = some j) : j < i ∧ st.get j = none := by
  constructor
  · exact List.mem_range.mp (List.mem_of_find?_eq_some h)
  · exact (stash_isVacantAt_iff st j).mp (List.find?_some h)

/-! ## HashMap insert/take behaviour (helper lemmas) -/

theorem hashmap_insert_behavior {K V : Type} [DecidableEq K] (encodeK : K → List Nat)
    (m : StorageHashMap K V) (store : List Nat → Option (ValueEntry V)) (k : K) (v : V) :
    (∀ e, (LazyHashMap.lazilyLoad encodeK m.values store k).2.value = some e →
      (StorageHashMap.insert encodeK m store k v).2 = some e.value
      ∧ (StorageHashMap.insert encodeK m store k v).1.keys = m.keys
      ∧ StorageHashMap.valueOf (StorageHashMap.insert encodeK m store k v).1 k =
          some ⟨v, e.keyIndex⟩
      ∧ ∀ q, q ≠ k → StorageHashMap.valueOf (StorageHashMap.insert encodeK m store k v).1 q =
          StorageHashMap.valueOf m q)
    ∧ ((LazyHashMap.lazilyLoad encodeK m.values store k).2.value = none →
      (StorageHashMap.insert encodeK m store k v).2 = none
      ∧ (StorageHashMap.insert encodeK m store k v).1.keys = (m.keys.put k).2
      ∧ StorageHashMap.valueOf (StorageHashMap.insert encodeK m store k v).1 k =
          some ⟨v, (m.keys.put k).1⟩
      ∧ (StorageHashMap.insert encodeK m store k v).1.keys.get (m.keys.put k).1 = some k
      ∧ m.keys.get (m.keys.put k).1 = none
      ∧ ∀ q, q ≠ k → StorageHashMap.valueOf (StorageHashMap.insert encodeK m store k v).1 q =
          StorageHashMap.valueOf m q) := by
  have hgm := hmap_getMutUpdate_snd encodeK m.values store k
    (fun w => { w with value := v })
  refine ⟨?_, ?_⟩
  · intro e he
    have h2 : (LazyHashMap.getMutUpdate encodeK m.values store k
        (fun w => { w with value := v })).2 = some e := by rw [hgm, he]
    refine ⟨?_, ?_, ?_, ?_⟩
    · simp [StorageHashMap.insert, h2]
    · simp [StorageHashMap.insert, h2]
    · have hcv := hmap_getMutUpdate_cacheValue_self encodeK m.values store k
        (fun w => { w with value := v })
      rw [he] at hcv
      simp [StorageHashMap.insert, h2, StorageHashMap.valueOf, hcv]
    · intro q hq
      have hcv := hmap_getMutUpdate_cacheValue_ne encodeK m.values store k q
        (fun w => { w with value := v }) hq
      simp [StorageHashMap.insert, h2, StorageHashMap.valueOf, hcv]
  · intro he
    have h2 : (LazyHashMap.getMutUpdate encodeK m.values store k
        (fun w => { w with value := v })).2 = none := by rw [hgm, he]
    have hput := stash_put_spec m.keys k
    refine ⟨?_, ?_, ?_, ?_, ?_, ?_⟩
    · simp [StorageHashMap.insert, h2]
    · simp [StorageHashMap.insert, h2]
    · simp [StorageHashMap.insert, h2, StorageHashMap.valueOf, hmap_put_cacheValue_self]
    · simpa [StorageHashMap.insert, h2] using hput.2.1
    · exact hput.1
    · intro q hq
      have hcv := hmap_getMutUpdate_cacheValue_ne encodeK m.values store k q
        (fun w => { w with value := v }) hq
      simp [StorageHashMap.insert, h2, StorageHashMap.valueOf,
        hmap_put_cacheValue_ne _ _ _ _ hq, hcv]

theorem hashmap_take_behavior {K V : Type} [DecidableEq K] (encodeK : K → List Nat)
    (m : StorageHashMap K V) (store : List Nat → Option (ValueEntry V)) (k : K) :
    (∀ e, (LazyHashMap.lazilyLoad encodeK m.values store k).2.value = some e →
      (StorageHashMap.take encodeK m store k).2 = some e.value
      ∧ StorageHashMap.valueOf (StorageHashMap.take encodeK m store k).1 k = none
      ∧ (StorageHashMap.take encodeK m store k).1.keys = (m.keys.take e.keyIndex).2
      ∧ ∀ q, q ≠ k → StorageHashMap.valueOf (StorageHashMap.take encodeK m store k).1 q =
          StorageHashMap.valueOf m q)
    ∧ ((LazyHashMap.lazilyLoad encodeK m.values store k).2.value = none →
      (StorageHashMap.take encodeK m store k).2 = none
      ∧ (StorageHashMap.take encodeK m store k).1.keys = m.keys
      ∧ StorageHashMap.valueOf (StorageHashMap.take encodeK m store k).1 k = none
      ∧ ∀ q, q ≠ k → StorageHashMap.valueOf (StorageHashMap.take encodeK m store k).1 q =
          StorageHashMap.valueOf m q) := by
  have hpg := hmap_putGet_snd encodeK m.values store k none
  refine ⟨?_, ?_⟩
  · intro e he
    have h2 : (LazyHashMap.putGet encodeK m.values store k none).2 = some e := by
      rw [hpg, he]
    refine ⟨?_, ?_, ?_, ?_⟩
    · simp [StorageHashMap.take, h2]
    · simp [StorageHashMap.take, h2, StorageHashMap.valueOf,
        hmap_putGet_none_cacheValue_self]
    · simp [StorageHashMap.take, h2]
    · intro q hq
      simp [StorageHashMap.take, h2, StorageHashMap.valueOf,
        hmap_putGet_cacheValue_ne _ _ _ _ _ _ hq]
  · intro he
    have h2 : (LazyHashMap.putGet encodeK m.values store k none).2 = none := by
      rw [hpg, he]
    refine ⟨?_, ?_, ?_, ?_⟩
    · simp [StorageHashMap.take, h2]
    · simp [StorageHashMap.take, h2]
    · simp [StorageHashMap.take, h2, StorageHashMap.valueOf,
        hmap_putGet_none_cacheValue_self]
    · intro q hq
      simp [StorageHashMap.take, h2, StorageHashMap.valueOf,
        hmap_putGet_cacheValue_ne _ _ _ _ _ _ hq]

/-! ## Claim C4 -/

/-- Claim C4: `HashMap::insert(k, v)` returns the previous value when
`k` is present (updating only the `value` field of the value entry in
place — the back-link and the key stash are untouched) and otherwise
returns `None`, putting `k` into a previously vacant stash slot whose
index becomes the new entry's back-link; `HashMap::take(k)` removes
the pair and the stash key at the entry's back-link index and returns
the removed value, returning `None` (and touching neither subsystem's
content) when `k` is absent.  Presence is the value loaded by
`values.get_mut` / `values.put_get`, i.e. the cached entry or, on a
cache miss, the disk image. -/
theorem hashmap_insert_take_spec {K V : Type} [DecidableEq K] (encodeK : K → List Nat)
    (m : StorageHashMap K V) (store : List Nat → Option (ValueEntry V)) (k : K) (v : V) :
    (∀ e, (LazyHashMap.lazilyLoad encodeK m.values store k).2.value = some e →
      (StorageHashMap.insert encodeK m store k v).2 = some e.value
      ∧ (StorageHashMap.insert encodeK m store k v).1.keys = m.keys
      ∧ StorageHashMap.valueOf (StorageHashMap.insert encodeK m store k v).1 k =
          some ⟨v, e.keyIndex⟩
      ∧ ∀ q, q ≠ k → StorageHashMap.valueOf (StorageHashMap.insert encodeK m store k v).1 q =
          StorageHashMap.valueOf m q)
    ∧ ((LazyHashMap.lazilyLoad encodeK m.values store k).2.value = none →
      (StorageHashMap.insert encodeK m store k v).2 = none
      ∧ (StorageHashMap.insert encodeK m store k v).1.keys = (m.keys.put k).2
      ∧ StorageHashMap.valueOf (StorageHashMap.insert encodeK m store k v).1 k =
          some ⟨v, (m.keys.put k).1⟩
      ∧ (StorageHashMap.insert encodeK m store k v).1.keys.get (m.keys.put k).1 = some k
      ∧ m.keys.get (m.keys.put k).1 = none
      ∧ ∀ q, q ≠ k → StorageHashMap.valueOf (StorageHashMap.insert encodeK m store k v).1 q =
          StorageHashMap.valueOf m q)
    ∧ (∀ e, (LazyHashMap.lazilyLoad encodeK m.values store k).2.value = some e →
      (StorageHashMap.take encodeK m store k).2 = some e.value
      ∧ StorageHashMap.valueOf (StorageHashMap.take encodeK m store k).1 k = none
      ∧ (StorageHashMap.take encodeK m store k).1.keys = (m.keys.take e.keyIndex).2
      ∧ ∀ q, q ≠ k → StorageHashMap.valueOf (StorageHashMap.take encodeK m store k).1 q =
          StorageHashMap.valueOf m q)
    ∧ ((LazyHashMap.lazilyLoad encodeK m.values store k).2.value = none →
      (StorageHashMap.take encodeK m store k).2 = none
      ∧ (StorageHashMap.take encodeK m store k).1.keys = m.keys
      ∧ StorageHashMap.valueOf (StorageHashMap.take encodeK m store k).1 k = none
      ∧ ∀ q, q ≠ k → StorageHashMap.valueOf (StorageHashMap.take encodeK m store k).1 q =
          StorageHashMap.valueOf m q) :=
  ⟨(hashmap_insert_behavior encodeK m store k v).1,
   (hashmap_insert_behavior encodeK m store k v).2,
   (hashmap_take_behavior encodeK m store k).1,
   (hashmap_take_behavior encodeK m store k).2⟩

/-- Witness for C4: on the singleton map `{7 ↦ 13}` built by an
absent-key insert into the empty map over the empty store, checking
the absent-insert, present-insert and present-take behaviour, plus an
absent take. -/
theorem hashmap_insert_take_spec_witness :
    ((StorageHashMap.insert scaleEncodeI32 (StorageHashMap.new (K := Int) (V := Nat))
        (fun _ => none) 7 13).2 = none
      ∧ (StorageHashMap.insert scaleEncodeI32 (StorageHashMap.new (K := Int) (V := Nat))
        (fun _ => none) 7 13).1.keys =
          ((StorageHashMap.new (K := Int) (V := Nat)).keys.put 7).2)
    ∧ (StorageHashMap.insert scaleEncodeI32
        (StorageHashMap.insert scaleEncodeI32 (StorageHashMap.new (K := Int) (V := Nat))
          (fun _ => none) 7 13).1 (fun _ => none) 7 21).2 = some 13
    ∧ (StorageHashMap.take scaleEncodeI32
        (StorageHashMap.insert scaleEncodeI32 (StorageHashMap.new (K := Int) (V := Nat))
          (fun _ => none) 7 13).1 (fun _ => none) 7).2 = some 13
    ∧ (StorageHashMap.take scaleEncodeI32 (StorageHashMap.new (K := Int) (V := Nat))
        (fun _ => none) 8).2 = none := by
  refine ⟨?_, ?_, ?_, ?_⟩
  · have h := (hashmap_insert_take_spec scaleEncodeI32
      (StorageHashMap.new (K := Int) (V := Nat)) (fun _ => none) 7 13).2.1 (by decide)
    exact ⟨h.1, h.2.1⟩
  · have h := (hashmap_insert_take_spec scaleEncodeI32
      (StorageHashMap.insert scaleEncodeI32 (StorageHashMap.new (K := Int) (V := Nat))
        (fun _ => none) 7 13).1 (fun _ => none) 7 21).1 ⟨13, 0⟩ (by decide)
    exact h.1
  · have h := (hashmap_insert_take_spec scaleEncodeI32
      (StorageHashMap.insert scaleEncodeI32 (StorageHashMap.new (K := Int) (V := Nat))
        (fun _ => none) 7 13).1 (fun _ => none) 7 0).2.2.1 ⟨13, 0⟩ (by decide)
    exact h.1
  · have h := (hashmap_insert_take_spec scaleEncodeI32
      (StorageHashMap.new (K := Int) (V := Nat)) (fun _ => none) 8 0).2.2.2 (by decide)
    exact h.1

/-! ## Coherence preservation lemmas -/

theorem hashmap_insert_values_key {K V : Type} [DecidableEq K] (encodeK : K → List Nat)
    (m : StorageHashMap K V) (store : List Nat → Option (ValueEntry V)) (k : K) (v : V) :
    (StorageHashMap.insert encodeK m store k v).1.values.key = m.values.key := by
  have h1 := hmap_getMutUpdate_key encodeK m.values store k fun w => { w with value := v }
  cases h2 : (LazyHashMap.getMutUpdate encodeK m.values store k
      fun w => { w with value := v }).2 with
  | some w => simp [StorageHashMap.insert, h2, h1]
  | none => simp [StorageHashMap.insert, h2, hmap_put_key, h1]

theorem hashmap_take_values_key {K V : Type} [DecidableEq K] (encodeK : K → List Nat)
    (m : StorageHashMap K V) (store : List Nat → Option (ValueEntry V)) (k : K) :
    (StorageHashMap.take encodeK m store k).1.values.key = m.values.key := by
  have h1 := hmap_putGet_key encodeK m.values store k none
  cases h2 : (LazyHashMap.putGet encodeK m.values store k none).2 with
  | some w => simp [StorageHashMap.take, h2, h1]
  | none => simp [StorageHashMap.take, h2, h1]

theorem hashmap_inv_insert {K V : Type} [DecidableEq K] (encodeK : K → List Nat)
    (m : StorageHashMap K V) (store : List Nat → Option (ValueEntry V)) (k : K) (v : V)
    (hkey : m.values.key = none) (hcoh : m.coherent) :
    (StorageHashMap.insert encodeK m store k v).1.values.key = none
    ∧ (StorageHashMap.insert encodeK m store k v).1.coherent := by
  obtain ⟨hc1, hc2⟩ := hcoh
  have hload := hmap_load_value_eq_cacheValue encodeK m.values store k hkey
  have hspec := hashmap_insert_behavior encodeK m store k v
  refine ⟨by rw [hashmap_insert_values_key, hkey], ?_⟩
  cases hv : (LazyHashMap.lazilyLoad encodeK m.values store k).2.value with
  | some e =>
    obtain ⟨hret, hkeys, hself, hothers⟩ := hspec.1 e hv
    have hmk : m.valueOf k = some e := by
      have : LazyHashMap.cacheValue m.values k = some e := by rw [← hload, hv]
      exact this
    constructor
    · intro k' e' he'
      by_cases hk' : k' = k
      · subst hk'
        rw [hself] at he'
        cases Option.some.inj he'
        rw [hkeys]
        exact hc1 k' e hmk
      · rw [hothers k' hk'] at he'
        rw [hkeys]
        exact hc1 k' e' he'
    · intro i k' hi
      rw [hkeys] at hi
      obtain ⟨e', he', hei⟩ := hc2 i k' hi
      by_cases hk' : k' = k
      · subst hk'
        have hee : e' = e := Option.some.inj (he'.symm.trans hmk)
        refine ⟨⟨v, e.keyIndex⟩, by rw [hself], ?_⟩
        show e.keyIndex = i
        rw [← hee]
        exact hei
      · exact ⟨e', by rw [hothers k' hk']; exact he', hei⟩
  | none =>
    obtain ⟨hret, hkeys, hself, hnew, hvac, hothers⟩ := hspec.2 hv
    have hput := stash_put_spec m.keys k
    have hmk : m.valueOf k = none := by
      have : LazyHashMap.cacheValue m.values k = none := by rw [← hload, hv]
      exact this
    constructor
    · intro k' e' he'
      by_cases hk' : k' = k
      · subst hk'
        rw [hself] at he'
        cases Option.some.inj he'
        exact hnew
      · rw [hothers k' hk'] at he'
        have hold := hc1 k' e' he'
        have hne : e'.keyIndex ≠ (m.keys.put k).1 := by
          intro hEq
          rw [hEq, hput.1] at hold
          exact Option.noConfusion hold
        rw [hkeys, hput.2.2 e'.keyIndex hne]
        exact hold
    · intro i k' hi
      rw [hkeys] at hi
      by_cases hi0 : i = (m.keys.put k).1
      · subst hi0
        have : k' = k := by
          have := hput.2.1
          rw [this] at hi
          exact (Option.some.inj hi).symm
        subst this
        exact ⟨⟨v, (m.keys.put k').1⟩, by rw [hself], rfl⟩
      · rw [hput.2.2 i (by exact hi0)] at hi
        obtain ⟨e', he', hei⟩ := hc2 i k' hi
        by_cases hk' : k' = k
        · subst hk'
          rw [hmk] at he'
          exact Option.noConfusion he'
        · exact ⟨e', by rw [hothers k' hk']; exact he', hei⟩

theorem hashmap_inv_take {K V : Type} [DecidableEq K] (encodeK : K → List Nat)
    (m : StorageHashMap K V) (store : List Nat → Option (ValueEntry V)) (k : K)
    (hkey : m.values.key = none) (hcoh : m.coherent) :
    (StorageHashMap.take encodeK m store k).1.values.key = none
    ∧ (StorageHashMap.take encodeK m store k).1.coherent := by
  obtain ⟨hc1, hc2⟩ := hcoh
  have hload := hmap_load_value_eq_cacheValue encodeK m.values store k hkey
  have hspec := hashmap_take_behavior encodeK m store k
  refine ⟨by rw [hashmap_take_values_key, hkey], ?_⟩
  cases hv : (LazyHashMap.lazilyLoad encodeK m.values store k).2.value with
  | some e =>
    obtain ⟨hret, hself, hkeys, hothers⟩ := hspec.1 e hv
    have hmk : m.valueOf k = some e := by
      have : LazyHashMap.cacheValue m.values k = some e := by rw [← hload, hv]
      exact this
    have hocc : m.keys.get e.keyIndex = some k := hc1 k e hmk
    have htake := (stash_take_spec m.keys e.keyIndex).1 k hocc
    constructor
    · intro k' e' he'
      by_cases hk' : k' = k
      · subst hk'
        rw [hself] at he'
        exact Option.noConfusion he'
      · rw [hothers k' hk'] at he'
        have hold := hc1 k' e' he'
        have hne : e'.keyIndex ≠ e.keyIndex := by
          intro hEq
          rw [hEq, hocc] at hold
          exact hk' (Option.some.inj hold).symm
        rw [hkeys, htake.2.2 e'.keyIndex hne]
        exact hold
    · intro i k' hi
      rw [hkeys] at hi
      by_cases hie : i = e.keyIndex
      · subst hie
        rw [htake.2.1] at hi
        exact Option.noConfusion hi
      · rw [htake.2.2 i hie] at hi
        obtain ⟨e', he', hei⟩ := hc2 i k' hi
        by_cases hk' : k' = k
        · subst hk'
          have : e' = e := Option.some.inj (he'.symm.trans hmk)
          subst this
          exact absurd hei.symm (by simpa using hie)
        · exact ⟨e', by rw [hothers k' hk']; exact he', hei⟩
  | none =>
    obtain ⟨hret, hkeys, hself, hothers⟩ := hspec.2 hv
    have hmk : m.valueOf k = none := by
      have : LazyHashMap.cacheValue m.values k = none := by rw [← hload, hv]
      exact this
    constructor
    · intro k' e' he'
      by_cases hk' : k' = k
      · subst hk'
        rw [hself] at he'
        exact Option.noConfusion he'
      · rw [hothers k' hk'] at he'
        rw [hkeys]
        exact hc1 k' e' he'
    · intro i k' hi
      rw [hkeys] at hi
      obtain ⟨e', he', hei⟩ := hc2 i k' hi
      by_cases hk' : k' = k
      · subst hk'
        rw [hmk] at he'
        exact Option.noConfusion he'
      · exact ⟨e', by rw [hothers k' hk']; exact he', hei⟩

theorem defragWith_coherent {K V : Type} [DecidableEq K] (encodeK : K → List Nat)
    (store : List Nat → Option (ValueEntry V))
    (cb : LazyHashMap K (ValueEntry V) → Nat → Nat → K → LazyHashMap K (ValueEntry V))
    (hcb : cb = fun values _oldIndex newIndex kk =>
      (LazyHashMap.getMutUpdate encodeK values store kk
        fun w => { w with keyIndex := newIndex }).1) :
    ∀ i moves (st : Stash K) (vs : LazyHashMap K (ValueEntry V)),
      vs.key = none →
      (∀ k e, LazyHashMap.cacheValue vs k = some e → st.get e.keyIndex = some k) →
      (∀ z k, st.get z = some k →
        ∃ e, LazyHashMap.cacheValue vs k = some e ∧ e.keyIndex = z) →
      (Stash.defragWith cb i moves st vs).2.key = none
      ∧ (∀ k e, LazyHashMap.cacheValue (Stash.defragWith cb i moves st vs).2 k = some e →
          (Stash.defragWith cb i moves st vs).1.get e.keyIndex = some k)
      ∧ (∀ z k, (Stash.defragWith cb i moves st vs).1.get z = some k →
          ∃ e, LazyHashMap.cacheValue (Stash.defragWith cb i moves st vs).2 k = some e
            ∧ e.keyIndex = z) := by
  intro i
  induction i with
  | zero =>
    intro moves st vs h0 h1 h2
    exact ⟨h0, h1, h2⟩
  | succ i ih =>
    intro moves st vs h0 h1 h2
    by_cases hm : moves = 0
    · subst hm
      exact ⟨h0, h1, h2⟩
    · cases hgi : st.getEntry i with
      | Vacant =>
        have hred : Stash.defragWith cb (i + 1) moves st vs =
            Stash.defragWith cb i moves st vs := by
          simp [Stash.defragWith, hm, hgi]
        rw [hred]
        exact ih moves st vs h0 h1 h2
      | Occupied t =>
        cases hfb : st.firstVacantBelow i with
        | none =>
          have hred : Stash.defragWith cb (i + 1) moves st vs =
              Stash.defragWith cb i moves st vs := by
            simp [Stash.defragWith, hm, hgi, hfb]
          rw [hred]
          exact ih moves st vs h0 h1 h2
        | some j =>
          have hred : Stash.defragWith cb (i + 1) moves st vs =
              Stash.defragWith cb i (moves - 1) (st.moveEntry i j t) (cb vs i j t) := by
            simp [Stash.defragWith, hm, hgi, hfb]
          rw [hred]
          obtain ⟨hji, hjnone⟩ := stash_firstVacantBelow_spec st i j hfb
          have hgeti : st.get i = some t := by simp [Stash.get, hgi]
          have hilt : i < st.capacity := stash_get_lt_of_some st i t hgeti
          have hjlt : j < st.capacity := lt_trans hji hilt
          have hmove := stash_move_spec st i j t (Nat.ne_of_lt hji) hjlt
          obtain ⟨e, hve, hei⟩ := h2 i t hgeti
          have hload := hmap_load_value_eq_cacheValue encodeK vs store t h0
          have hv : (LazyHashMap.lazilyLoad encodeK vs store t).2.value = some e := by
            rw [hload, hve]
          have hcv_self := hmap_getMutUpdate_cacheValue_self encodeK vs store t
            (fun w => { w with keyIndex := j })
          rw [hv] at hcv_self
          simp only [Option.map_some'] at hcv_self
          have hkeycb : (cb vs i j t).key = none := by
            rw [hcb]
            simpa [hmap_getMutUpdate_key] using h0
          have hcb_self : LazyHashMap.cacheValue (cb vs i j t) t =
              some { e with keyIndex := j } := by
            rw [hcb]
            exact hcv_self
          have hcb_ne : ∀ q, q ≠ t →
              LazyHashMap.cacheValue (cb vs i j t) q = LazyHashMap.cacheValue vs q := by
            intro q hq
            rw [hcb]
            exact hmap_getMutUpdate_cacheValue_ne encodeK vs store t q _ hq
          apply ih (moves - 1) (st.moveEntry i j t) (cb vs i j t) hkeycb ?_ ?_
          · intro k e' he'
            by_cases hk : k = t
            · rw [hk] at he'
              rw [hcb_self] at he'
              cases Option.some.inj he'
              rw [hk]
              exact hmove.1
            · rw [hcb_ne k hk] at he'
              have hold := h1 k e' he'
              have hnei : e'.keyIndex ≠ i := by
                intro hEq
                rw [hEq, hgeti] at hold
                exact hk (Option.some.inj hold).symm
              have hnej : e'.keyIndex ≠ j := by
                intro hEq
                rw [hEq, hjnone] at hold
                exact Option.noConfusion hold
              rw [hmove.2.2 e'.keyIndex hnei hnej]
              exact hold
          · intro z k hz
            by_cases hzj : z = j
            · rw [hzj, hmove.1] at hz
              have hk : k = t := (Option.some.inj hz).symm
              refine ⟨{ e with keyIndex := j }, ?_, ?_⟩
              · rw [hk]
                exact hcb_self
              · show j = z
                rw [hzj]
            · by_cases hzi : z = i
              · rw [hzi, hmove.2.1] at hz
                exact Option.noConfusion hz
              · rw [hmove.2.2 z hzi hzj] at hz
                obtain ⟨e', he', hez⟩ := h2 z k hz
                by_cases hk : k = t
                · exfalso
                  rw [hk, hve] at he'
                  have hee : e' = e := (Option.some.inj he').symm
                  rw [hee] at hez
                  rw [hei] at hez
                  exact hzi hez.symm
                · exact ⟨e', by rw [hcb_ne k hk]; exact he', hez⟩

theorem hashmap_inv_defrag {K V : Type} [DecidableEq K] (encodeK : K → List Nat)
    (m : StorageHashMap K V) (store : List Nat → Option (ValueEntry V))
    (maxIterations : Option Nat) (hkey : m.values.key = none) (hcoh : m.coherent) :
    (StorageHashMap.defrag encodeK m store maxIterations).values.key = none
    ∧ (StorageHashMap.defrag encodeK m store maxIterations).coherent := by
  obtain ⟨hc1, hc2⟩ := hcoh
  have h := defragWith_coherent encodeK store _ rfl m.keys.capacity
    (maxIterations.getD (m.keys.capacity - m.keys.len)) m.keys m.values hkey hc1 hc2
  refine ⟨?_, ?_, ?_⟩
  · simpa [StorageHashMap.defrag] using h.1
  · intro k e he
    have h1 := h.2.1 k e (by
      simpa [StorageHashMap.defrag, StorageHashMap.valueOf] using he)
    simpa [StorageHashMap.defrag] using h1
  · intro z k hz
    have h2 := h.2.2 z k (by simpa [StorageHashMap.defrag] using hz)
    simpa [StorageHashMap.defrag, StorageHashMap.valueOf] using h2

/-! ## Claim C3 -/

/-- Claim C3: starting from the empty storage hash map, after any
sequence of `insert`, `take` and `defrag` operations the two
subsystems are coherent: every live value entry stored under map key
`k` has the stash holding exactly `k` at its `key_index`, and every
live stash key has exactly one matching value entry (the one cached
under that key, whose back-link is the stash slot). -/
theorem hashmap_stash_coherence {K V : Type} [DecidableEq K] (encodeK : K → List Nat)
    (store : List Nat → Option (ValueEntry V)) (ops : List (HashMapOp K V)) :
    StorageHashMap.coherent
      (StorageHashMap.runOps encodeK store (StorageHashMap.new (K := K) (V := V)) ops) := by
  have hnew1 : (StorageHashMap.new (K := K) (V := V)).values.key = none := rfl
  have hnew2 : (StorageHashMap.new (K := K) (V := V)).coherent := by
    constructor
    · intro k e he
      simp [StorageHashMap.valueOf, LazyHashMap.cacheValue, StorageHashMap.new,
        LazyHashMap.new, alup] at he
    · intro i k hi
      simp [Stash.get, Stash.getEntry, StorageHashMap.new, Stash.new] at hi
  have main : ∀ (l : List (HashMapOp K V)) (m : StorageHashMap K V),
      m.values.key = none → m.coherent →
      (StorageHashMap.runOps encodeK store m l).values.key = none
      ∧ (StorageHashMap.runOps encodeK store m l).coherent := by
    intro l
    induction l with
    | nil =>
      intro m h0 h1
      exact ⟨h0, h1⟩
    | cons op rest ih =>
      intro m h0 h1
      cases op with
      | ins k v =>
        have h := hashmap_inv_insert encodeK m store k v h0 h1
        exact ih _ h.1 h.2
      | tak k =>
        have h := hashmap_inv_take encodeK m store k h0 h1
        exact ih _ h.1 h.2
      | defragment n =>
        have h := hashmap_inv_defrag encodeK m store n h0 h1
        exact ih _ h.1 h.2
  exact (main ops _ hnew1 hnew2).2
